import Mathlib

/-!
Verification of the RESP decoder in `hbina/redis-protocol-parser` (`src/lib.rs`).

The buffer is a `List Nat` of byte values. Byte constants used below:
`'+' = 43`, `'-' = 45`, `':' = 58`, `'$' = 36`, `'*' = 42`,
`'\r' = CR = 13`, `'\n' = LF = 10`, `'0' = 48`, `'1' = 49`, `'9' = 57`.

Rust operations that can panic (out-of-range slicing, `Vec::with_capacity`)
are modelled as returning `Out.abort`; fallible operations return `Out.err`
with the `RError` from the source. The recursion `parse_resp` / `parse_arrays`
is embedded with a structural fuel parameter; `Out.nofuel` is the artificial
out-of-fuel marker, and `parse_resp` supplies fuel `input.length + 1`, which
is proved sufficient (`parse_resp_fuel_sufficient`).
-/

/-- The conversion failures that the source wraps into `RError::Other`:
`std::str::Utf8Error` from `std::str::from_utf8`, and the three kinds of
`std::num::ParseIntError` that `str::parse::<u64>` can produce. -/
inductive ConvErr : Type where
  | utf8Error
  | parseEmpty
  | parseInvalidDigit
  | parsePosOverflow
deriving DecidableEq

/-- `enum RError` from the source: `UnknownSymbol`, `EmptyInput`, `NoCrlf`,
`IncorrectFormat`, and `Other(Box<dyn Error>)` which in this crate only ever
wraps a conversion failure (`From<Utf8Error>` / `From<ParseIntError>`). -/
inductive RError : Type where
  | unknownSymbol
  | emptyInput
  | noCrlf
  | incorrectFormat
  | other (e : ConvErr)
deriving DecidableEq

/-- `enum RESP<'a>` from the source; borrowed byte slices become `List Nat`. -/
inductive RESP : Type where
  | string (s : List Nat)
  | error (s : List Nat)
  | integer (s : List Nat)
  | bulkString (s : List Nat)
  | nil
  | array (xs : List RESP)

/-- Outcome of running a piece of the Rust code: a value, an `RError`
(the `Result` channel), a process abort (Rust panic), or fuel exhaustion
(an artifact of the fuel embedding, never reached with sufficient fuel). -/
inductive Out (α : Type) : Type where
  | ok (a : α)
  | err (e : RError)
  | abort
  | nofuel

/-- Sequencing in the `Result` channel: models Rust's `?` operator;
aborts and fuel exhaustion propagate. -/
def obind {α β : Type} (x : Out α) (f : α → Out β) : Out β :=
  match x with
  | .ok a => f a
  | .err e => .err e
  | .abort => .abort
  | .nofuel => .nofuel

/-- Rust slice expression `&xs[..i]`: panics when `i > xs.len()`. -/
def sliceTo (xs : List Nat) (i : Nat) : Out (List Nat) :=
  if i ≤ xs.length then .ok (xs.take i) else .abort

/-- Rust slice expression `&xs[i..]`: panics when `i > xs.len()`. -/
def sliceFrom (xs : List Nat) (i : Nat) : Out (List Nat) :=
  if i ≤ xs.length then .ok (xs.drop i) else .abort

/-- Index of the first adjacent `\r\n` pair, scanning the pairs
`(input[i], input[i+1])` exactly as the source's
`input.iter().zip(input.iter().skip(1)).enumerate()` does. -/
def findCrlf : List Nat → Option Nat
  | a :: b :: rest =>
    if a = 13 ∧ b = 10 then some 0 else (findCrlf (b :: rest)).map (· + 1)
  | _ => none

/-- True when the buffer contains an adjacent `\r\n` pair. -/
def hasCrlf : List Nat → Bool
  | a :: b :: rest => (decide (a = 13) && decide (b = 10)) || hasCrlf (b :: rest)
  | _ => false

/-- `parse_everything_until_crlf` from the source: on the first adjacent
`\r\n` at `index` it returns `(&input[0..index], &input[index + 2..])`,
otherwise `Err(RError::NoCrlf)`. -/
def parse_everything_until_crlf (input : List Nat) : Out (List Nat × List Nat) :=
  match findCrlf input with
  | some index =>
    obind (sliceTo input index) fun line =>
    obind (sliceFrom input (index + 2)) fun rem =>
    .ok (line, rem)
  | none => .err .noCrlf

/-- `parse_simple_string`: `parse_everything_until_crlf(input).map(|(x, y)| (RESP::String(x), y))`. -/
def parse_simple_string (input : List Nat) : Out (RESP × List Nat) :=
  obind (parse_everything_until_crlf input) fun xy => .ok (.string xy.1, xy.2)

/-- `parse_errors`: same line scan, wrapped as `RESP::Error`. -/
def parse_errors (input : List Nat) : Out (RESP × List Nat) :=
  obind (parse_everything_until_crlf input) fun xy => .ok (.error xy.1, xy.2)

/-- `parse_integers`: same line scan, wrapped as `RESP::Integer`. -/
def parse_integers (input : List Nat) : Out (RESP × List Nat) :=
  obind (parse_everything_until_crlf input) fun xy => .ok (.integer xy.1, xy.2)

/-- The UTF-8 validity check performed by `std::str::from_utf8`
(the standard table: ASCII; 2-byte leads `C2..DF`; 3-byte leads `E0`
(second byte `A0..BF`), `E1..EC`, `ED` (second byte `80..9F`, excluding
surrogates), `EE..EF`; 4-byte leads `F0` (second byte `90..BF`),
`F1..F3`, `F4` (second byte `80..8F`); continuation bytes `80..BF`). -/
def utf8Cont (b : Nat) : Bool := decide (128 ≤ b) && decide (b ≤ 191)

mutual

/-- UTF-8 validity of a byte sequence, as `std::str::from_utf8` checks it. -/
def utf8Valid : List Nat → Bool
  | [] => true
  | b :: rest =>
    if b ≤ 127 then utf8Valid rest
    else if b < 194 then false
    else if b ≤ 223 then utf8ValidCont 128 191 0 rest
    else if b = 224 then utf8ValidCont 160 191 1 rest
    else if b ≤ 236 then utf8ValidCont 128 191 1 rest
    else if b = 237 then utf8ValidCont 128 159 1 rest
    else if b ≤ 239 then utf8ValidCont 128 191 1 rest
    else if b = 240 then utf8ValidCont 144 191 2 rest
    else if b ≤ 243 then utf8ValidCont 128 191 2 rest
    else if b = 244 then utf8ValidCont 128 143 2 rest
    else false

/-- One continuation byte constrained to `lo..hi`, then `k` further plain
continuation bytes, then back to `utf8Valid`. -/
def utf8ValidCont (lo hi k : Nat) : List Nat → Bool
  | [] => false
  | c :: r =>
    decide (lo ≤ c) && decide (c ≤ hi) &&
      (match k with
       | 0 => utf8Valid r
       | k' + 1 => utf8ValidCont 128 191 k' r)

end

/-- The digit loop of `u64::from_str` (`from_str_radix` with radix 10):
each step does `checked_mul` by 10 then `checked_add` of the digit, failing
with `PosOverflow` as soon as the accumulator would leave `u64`, and with
`InvalidDigit` on a non-digit byte. -/
def parseDigits (acc : Nat) : List Nat → Out Nat
  | [] => .ok acc
  | c :: rest =>
    if 48 ≤ c ∧ c ≤ 57 then
      if acc * 10 + (c - 48) < 2 ^ 64 then parseDigits (acc * 10 + (c - 48)) rest
      else .err (.other .parsePosOverflow)
    else .err (.other .parseInvalidDigit)

/-- `str::parse::<u64>` on a byte string already known to be valid UTF-8:
empty input is `Empty`, a lone sign is `InvalidDigit`, an optional leading
`+` is stripped, then the digit loop runs. (A lone `-` also ends as
`InvalidDigit`, through the digit loop, as in the source.) In valid UTF-8
every non-ASCII character begins with a byte ≥ 128, which the digit loop
rejects, so scanning bytes agrees with Rust scanning characters. -/
def parseU64str (s : List Nat) : Out Nat :=
  match s with
  | [] => .err (.other .parseEmpty)
  | c :: rest =>
    if c = 43 then
      if rest = [] then .err (.other .parseInvalidDigit) else parseDigits 0 rest
    else parseDigits 0 (c :: rest)

/-- The length/count conversion in the source:
`std::str::from_utf8(size_str)?.parse::<u64>()? as usize`
(on the 64-bit targets of this crate `as usize` is the identity on `u64`). -/
def parseLenU64 (s : List Nat) : Out Nat :=
  if utf8Valid s then parseU64str s else .err (.other .utf8Error)

/-- `check_crlf_at_index`:
`input.len() >= index + 2 && input[index] == b'\r' && input[index + 1] == b'\n'`
(the length conjunct short-circuits, so the indexing is always in bounds). -/
def check_crlf_at_index (input : List Nat) (index : Nat) : Bool :=
  decide (index + 2 ≤ input.length) && (input.getD index 0 == 13)
    && (input.getD (index + 1) 0 == 10)

/-- `check_null_value`:
`input.len() >= 4 && input[0] == b'-' && input[1] == b'1' && input[2] == CR && input[3] == LF`. -/
def check_null_value (input : List Nat) : Bool :=
  decide (4 ≤ input.length) && (input.getD 0 0 == 45) && (input.getD 1 0 == 49)
    && (input.getD 2 0 == 13) && (input.getD 3 0 == 10)

/-- `parse_bulk_strings`: the nil special case (`NIL_VALUE_SIZE = 4`),
otherwise scan the length line, convert it, validate `length + 2` bytes and
the trailing CRLF with `check_crlf_at_index`, then slice payload and rest. -/
def parse_bulk_strings (input : List Nat) : Out (RESP × List Nat) :=
  if check_null_value input then
    obind (sliceFrom input 4) fun rem => .ok (.nil, rem)
  else
    obind (parse_everything_until_crlf input) fun sl =>
    obind (parseLenU64 sl.1) fun size =>
    if check_crlf_at_index sl.2 size then
      obind (sliceTo sl.2 size) fun payload =>
      obind (sliceFrom sl.2 (size + 2)) fun rem =>
      .ok (.bulkString payload, rem)
    else .err .incorrectFormat

/-- `isize::MAX` on the 64-bit targets of this crate. -/
def isizeMax : Nat := 2 ^ 63 - 1

/-- `Vec::with_capacity(sizes)` for `Vec<RESP<'_>>`, executed by
`parse_arrays` before any element is decoded. It panics ("capacity
overflow") when the requested capacity exceeds `isize::MAX` bytes, i.e.
when `sizes * size_of::<RESP>() > isize::MAX`; `size_of::<RESP>()` is 32
on the 64-bit layout (a 24-byte `Vec` plus the discriminant, rounded to
the 8-byte alignment). -/
def vec_with_capacity_RESP (sizes : Nat) : Out Unit :=
  if 32 * sizes ≤ isizeMax then .ok () else .abort

/-- The element loop of `parse_arrays`: `count` iterations of
`parse_resp` (passed in as `p`), threading each iteration's leftover into
the next and collecting the elements in order; the first failure aborts
the whole loop, discarding the elements already decoded. -/
def parse_elems (p : List Nat → Out (RESP × List Nat)) : Nat → List Nat → Out (List RESP × List Nat)
  | 0, left => .ok ([], left)
  | n + 1, left =>
    obind (p left) fun et =>
    obind (parse_elems p n et.2) fun rl =>
    .ok (et.1 :: rl.1, rl.2)

/-- `parse_arrays`, generic in the dispatcher `p` it calls back into:
scan the count line, convert it, allocate (`Vec::with_capacity`), then run
the element loop. -/
def parse_arrays_g (p : List Nat → Out (RESP × List Nat)) (input : List Nat) :
    Out (RESP × List Nat) :=
  obind (parse_everything_until_crlf input) fun sl =>
  obind (parseLenU64 sl.1) fun size =>
  obind (vec_with_capacity_RESP size) fun _ =>
  obind (parse_elems p size sl.2) fun rl =>
  .ok (.array rl.1, rl.2)

/-- `parse_resp` with fuel: empty input fails with `EmptyInput`, otherwise
the first byte is consumed as the sigil and dispatched
(`+ : $ * -` in the source's order); any other byte fails with
`UnknownSymbol`. One unit of fuel is spent per nesting level of arrays. -/
def parse_resp_fuel : Nat → List Nat → Out (RESP × List Nat)
  | 0, _ => .nofuel
  | fuel + 1, input =>
    match input with
    | [] => .err .emptyInput
    | first :: rest =>
      if first = 43 then parse_simple_string rest
      else if first = 58 then parse_integers rest
      else if first = 36 then parse_bulk_strings rest
      else if first = 42 then parse_arrays_g (parse_resp_fuel fuel) rest
      else if first = 45 then parse_errors rest
      else .err .unknownSymbol

/-- `RedisProtocolParser::parse_resp`. Fuel `input.length + 1` is enough:
every nested dispatch consumes at least one byte first, and
`parse_resp_fuel_sufficient` below proves `Out.nofuel` is never returned. -/
def parse_resp (input : List Nat) : Out (RESP × List Nat) :=
  parse_resp_fuel (input.length + 1) input

/-- ASCII decimal numeral of `n`, most significant digit first
(the digits `<n>` of a well-formed `$<n>\r\n...` frame). -/
def natDecimal (n : Nat) : List Nat :=
  if n < 10 then [48 + n] else natDecimal (n / 10) ++ [48 + n % 10]
termination_by n
decreasing_by exact Nat.div_lt_self (by omega) (by omega)

mutual

/-- The canonical RESP wire encoding of a value (the encodings that the
spec calls "validly encoded"). -/
def enc : RESP → List Nat
  | .string s => 43 :: (s ++ [13, 10])
  | .error s => 45 :: (s ++ [13, 10])
  | .integer s => 58 :: (s ++ [13, 10])
  | .bulkString s => 36 :: (natDecimal s.length ++ 13 :: 10 :: (s ++ [13, 10]))
  | .nil => [36, 45, 49, 13, 10]
  | .array xs => 42 :: (natDecimal xs.length ++ 13 :: 10 :: encList xs)

/-- Concatenation of the encodings of an element list, in order. -/
def encList : List RESP → List Nat
  | [] => []
  | x :: t => enc x ++ encList t

end

mutual

/-- A validly encoded value, by the wire grammar alone: line-typed values
must not contain an embedded CRLF (the scanner would split them early),
and a bulk string's length or an array's element count must fit in `u64`
so its length line converts. No resource bound is part of this notion. -/
def validEncB : RESP → Bool
  | .string s => !hasCrlf s
  | .error s => !hasCrlf s
  | .integer s => !hasCrlf s
  | .bulkString s => decide (s.length < 2 ^ 64)
  | .nil => true
  | .array xs => decide (xs.length < 2 ^ 64) && validEncListB xs

/-- `validEncB` for every element of a list. -/
def validEncListB : List RESP → Bool
  | [] => true
  | x :: t => validEncB x && validEncListB t

end

mutual

/-- Representability of every `Vec<RESP>` that decoding the value would
allocate: each array node in the tree must request at most `isize::MAX`
bytes from `Vec::with_capacity`, i.e. `32 * count ≤ isize::MAX` with the
32-byte element layout. A count beyond this bound is still validly
encoded, but the code panics on it in `Vec::with_capacity` instead of
decoding the array. -/
def vecFitsB : RESP → Bool
  | .string _ => true
  | .error _ => true
  | .integer _ => true
  | .bulkString _ => true
  | .nil => true
  | .array xs => decide (32 * xs.length ≤ isizeMax) && vecFitsListB xs

/-- `vecFitsB` for every element of a list. -/
def vecFitsListB : List RESP → Bool
  | [] => true
  | x :: t => vecFitsB x && vecFitsListB t

end

/-! ## Basic lemmas about the outcome monad -/

@[simp] theorem obind_ok {α β : Type} (a : α) (f : α → Out β) : obind (.ok a) f = f a := rfl

@[simp] theorem obind_err {α β : Type} (e : RError) (f : α → Out β) :
    obind (.err e) f = .err e := rfl

@[simp] theorem obind_abort {α β : Type} (f : α → Out β) : obind (.abort : Out α) f = .abort := rfl

@[simp] theorem obind_nofuel {α β : Type} (f : α → Out β) :
    obind (.nofuel : Out α) f = .nofuel := rfl

/-! ## The line scanner -/

theorem findCrlf_none_iff (input : List Nat) : findCrlf input = none ↔ hasCrlf input = false := by
  induction input with
  | nil => simp [findCrlf, hasCrlf]
  | cons a tail ih =>
    cases tail with
    | nil => simp [findCrlf, hasCrlf]
    | cons b rest =>
      rw [findCrlf, hasCrlf]
      split
      · rename_i hab
        simp [hab.1, hab.2]
      · rename_i hab
        have : ¬(a = 13 ∧ b = 10) := hab
        constructor
        · intro h
          have h0 : findCrlf (b :: rest) = none := by
            cases hc : findCrlf (b :: rest) with
            | none => rfl
            | some j => rw [hc] at h; simp at h
          simp [ih.mp h0]
          omega
        · intro h
          have h1 : hasCrlf (b :: rest) = false := by
            cases h2 : hasCrlf (b :: rest) <;> simp [h2] at h ⊢
          rw [ih.mpr h1]
          rfl

theorem findCrlf_some_spec (input : List Nat) :
    ∀ i, findCrlf input = some i →
      i + 2 ≤ input.length ∧ input = input.take i ++ 13 :: 10 :: input.drop (i + 2) ∧
        hasCrlf (input.take i) = false := by
  induction input with
  | nil => intro i h; simp [findCrlf] at h
  | cons a tail ih =>
    intro i h
    cases tail with
    | nil => simp [findCrlf] at h
    | cons b rest =>
      rw [findCrlf] at h
      split at h
      · rename_i hab
        obtain rfl : (0 : Nat) = i := by simpa using h
        obtain ⟨rfl, rfl⟩ := hab
        refine ⟨by simp, by simp, by simp [hasCrlf]⟩
      · rename_i hab
        obtain ⟨j, hj, rfl⟩ := Option.map_eq_some'.mp h
        obtain ⟨hlen, hshape, hnone⟩ := ih j hj
        refine ⟨by simpa using hlen, ?_, ?_⟩
        · show a :: b :: rest = (a :: b :: rest).take (j + 1) ++ 13 :: 10 :: (a :: b :: rest).drop (j + 1 + 2)
          have : (a :: b :: rest).take (j + 1) = a :: (b :: rest).take j := by simp
          rw [this]
          have : (a :: b :: rest).drop (j + 1 + 2) = (b :: rest).drop (j + 2) := by simp
          rw [this]
          exact congrArg (a :: ·) hshape
        · show hasCrlf ((a :: b :: rest).take (j + 1)) = false
          cases j with
          | zero => simp [hasCrlf]
          | succ j' =>
            have ht : (a :: b :: rest).take (j' + 2) = a :: b :: rest.take j' := by simp
            rw [ht, hasCrlf]
            have ht2 : (b :: rest).take (j' + 1) = b :: rest.take j' := by simp
            rw [ht2] at hnone
            rw [hnone]
            have : ¬(a = 13 ∧ b = 10) := hab
            simp only [Bool.or_false]
            by_cases h13 : a = 13
            · have : b ≠ 10 := fun hb => this ⟨h13, hb⟩
              simp [h13, this]
            · simp [h13]

theorem findCrlf_append (line rem : List Nat) (h : hasCrlf line = false) :
    findCrlf (line ++ 13 :: 10 :: rem) = some line.length := by
  induction line with
  | nil => simp [findCrlf]
  | cons a t ih =>
    cases t with
    | nil =>
      show findCrlf (a :: 13 :: 10 :: rem) = some 1
      rw [findCrlf]
      have : ¬(a = 13 ∧ (13 : Nat) = 10) := by omega
      rw [if_neg this]
      rw [findCrlf]
      simp
    | cons b t' =>
      rw [hasCrlf] at h
      have hpair : ¬(a = 13 ∧ b = 10) := by
        intro ⟨h1, h2⟩; simp [h1, h2] at h
      have ht : hasCrlf (b :: t') = false := by
        cases h2 : hasCrlf (b :: t') <;> simp [h2] at h ⊢
      show findCrlf (a :: b :: (t' ++ 13 :: 10 :: rem)) = some (t'.length + 1 + 1)
      rw [findCrlf, if_neg hpair]
      have := ih ht
      rw [show (b :: t') ++ 13 :: 10 :: rem = b :: (t' ++ 13 :: 10 :: rem) from rfl] at this
      rw [this]
      simp

theorem scan_eq_some (input : List Nat) (i : Nat) (h : findCrlf input = some i) :
    parse_everything_until_crlf input =
      obind (sliceTo input i) fun line =>
      obind (sliceFrom input (i + 2)) fun rem => .ok (line, rem) := by
  rw [parse_everything_until_crlf, h]

theorem scan_eq_none (input : List Nat) (h : findCrlf input = none) :
    parse_everything_until_crlf input = .err .noCrlf := by
  rw [parse_everything_until_crlf, h]

theorem sliceTo_eq_ok (xs : List Nat) (i : Nat) (h : i ≤ xs.length) :
    sliceTo xs i = .ok (xs.take i) := by simp [sliceTo, h]

theorem sliceFrom_eq_ok (xs : List Nat) (i : Nat) (h : i ≤ xs.length) :
    sliceFrom xs i = .ok (xs.drop i) := by simp [sliceFrom, h]

theorem scan_ok_iff (input line rem : List Nat) :
    parse_everything_until_crlf input = .ok (line, rem) ↔
      input = line ++ 13 :: 10 :: rem ∧ hasCrlf line = false := by
  constructor
  · intro h
    cases hf : findCrlf input with
    | none => rw [scan_eq_none input hf] at h; simp at h
    | some i =>
      obtain ⟨hlen, hshape, hnone⟩ := findCrlf_some_spec input i hf
      rw [scan_eq_some input i hf, sliceTo_eq_ok _ _ (by omega), obind_ok,
        sliceFrom_eq_ok _ _ (by omega), obind_ok] at h
      obtain ⟨rfl, rfl⟩ : input.take i = line ∧ input.drop (i + 2) = rem := by
        constructor <;> [exact congrArg Prod.fst (Out.ok.inj h);
          exact congrArg Prod.snd (Out.ok.inj h)]
      exact ⟨hshape, hnone⟩
  · rintro ⟨rfl, hline⟩
    rw [scan_eq_some _ _ (findCrlf_append line rem hline),
      sliceTo_eq_ok _ _ (by simp), obind_ok,
      sliceFrom_eq_ok _ _ (by simp only [List.length_append, List.length_cons]; omega), obind_ok]
    rw [List.take_left]
    have hdrop : (line ++ 13 :: 10 :: rem).drop (line.length + 2) = rem := by
      rw [show line ++ 13 :: 10 :: rem = (line ++ [13, 10]) ++ rem by simp]
      exact List.drop_left' (by simp)
    rw [hdrop]

theorem scan_err_iff (input : List Nat) :
    parse_everything_until_crlf input = .err .noCrlf ↔ hasCrlf input = false := by
  constructor
  · intro h
    cases hf : findCrlf input with
    | none => exact (findCrlf_none_iff input).mp hf
    | some i =>
      obtain ⟨hlen, _, _⟩ := findCrlf_some_spec input i hf
      rw [scan_eq_some input i hf, sliceTo_eq_ok _ _ (by omega), obind_ok,
        sliceFrom_eq_ok _ _ (by omega), obind_ok] at h
      exact absurd h (by simp)
  · intro h
    exact scan_eq_none input ((findCrlf_none_iff input).mpr h)

theorem scan_total (input : List Nat) :
    (∃ l r, parse_everything_until_crlf input = .ok (l, r)) ∨
      parse_everything_until_crlf input = .err .noCrlf := by
  cases hf : findCrlf input with
  | none => right; exact scan_eq_none input hf
  | some i =>
    left
    obtain ⟨hlen, _, _⟩ := findCrlf_some_spec input i hf
    refine ⟨input.take i, input.drop (i + 2), ?_⟩
    rw [scan_eq_some input i hf, sliceTo_eq_ok _ _ (by omega), obind_ok,
      sliceFrom_eq_ok _ _ (by omega), obind_ok]

/-! ## Decimal numerals -/

theorem natDecimal_digits (n : Nat) :
    natDecimal n ≠ [] ∧ ∀ d ∈ natDecimal n, 48 ≤ d ∧ d ≤ 57 := by
  induction n using Nat.strong_induction_on with
  | _ n ih =>
    rw [natDecimal]
    split
    · rename_i h
      refine ⟨by simp, ?_⟩
      intro d hd
      simp at hd
      omega
    · rename_i h
      have hdiv := ih (n / 10) (Nat.div_lt_self (by omega) (by omega))
      refine ⟨by simp, ?_⟩
      intro d hd
      rw [List.mem_append] at hd
      rcases hd with hd | hd
      · exact hdiv.2 d hd
      · have := Nat.mod_lt n (y := 10) (by omega)
        simp at hd
        omega

theorem hasCrlf_of_no13 (l : List Nat) (h : ∀ d ∈ l, d ≠ 13) : hasCrlf l = false := by
  induction l with
  | nil => rfl
  | cons a t ih =>
    cases t with
    | nil => rfl
    | cons b r =>
      rw [hasCrlf]
      have ha : a ≠ 13 := h a (by simp)
      have hb : hasCrlf (b :: r) = false :=
        ih (fun d hd => h d (List.mem_cons_of_mem a hd))
      simp [ha, hb]

theorem natDecimal_no_crlf (n : Nat) : hasCrlf (natDecimal n) = false :=
  hasCrlf_of_no13 _ (fun d hd => by have := (natDecimal_digits n).2 d hd; omega)

theorem utf8Valid_ascii (l : List Nat) (h : ∀ d ∈ l, d ≤ 127) : utf8Valid l = true := by
  induction l with
  | nil => rfl
  | cons b rest ih =>
    rw [utf8Valid, if_pos (h b (List.mem_cons_self b rest))]
    exact ih (fun d hd => h d (List.mem_cons_of_mem b hd))

/-! ## The u64 digit loop -/

theorem parseDigits_append (l1 l2 : List Nat) : ∀ acc,
    parseDigits acc (l1 ++ l2) = obind (parseDigits acc l1) (fun a => parseDigits a l2) := by
  induction l1 with
  | nil => intro acc; rfl
  | cons c r ih =>
    intro acc
    rw [List.cons_append, parseDigits, parseDigits]
    split
    · split
      · exact ih _
      · rfl
    · rfl

theorem parseDigits_natDecimal (n : Nat) : ∀ acc,
    acc * 10 ^ (natDecimal n).length + n < 2 ^ 64 →
      parseDigits acc (natDecimal n) = .ok (acc * 10 ^ (natDecimal n).length + n) := by
  induction n using Nat.strong_induction_on with
  | _ n ih =>
    intro acc hlt
    by_cases h : n < 10
    · rw [natDecimal, if_pos h] at hlt ⊢
      simp only [List.length_cons, List.length_nil, pow_one, zero_add] at hlt ⊢
      rw [parseDigits, if_pos (by omega)]
      have hv : acc * 10 + (48 + n - 48) = acc * 10 + n := by omega
      rw [hv, if_pos (by omega : acc * 10 + n < 2 ^ 64)]
      rw [parseDigits]
    · rw [natDecimal, if_neg h] at hlt ⊢
      rw [parseDigits_append]
      have hq := Nat.div_add_mod n 10
      have hr : n % 10 < 10 := Nat.mod_lt n (y := 10) (by omega)
      have hlen : (natDecimal (n / 10) ++ [48 + n % 10]).length
          = (natDecimal (n / 10)).length + 1 := by simp
      rw [hlen] at hlt
      have hX : acc * 10 ^ ((natDecimal (n / 10)).length + 1)
          = (acc * 10 ^ (natDecimal (n / 10)).length) * 10 := by ring
      rw [hX] at hlt
      have hsub : acc * 10 ^ (natDecimal (n / 10)).length + n / 10 < 2 ^ 64 := by omega
      rw [ih (n / 10) (Nat.div_lt_self (by omega) (by omega)) acc hsub, obind_ok]
      rw [parseDigits, if_pos (by omega)]
      have hv : (acc * 10 ^ (natDecimal (n / 10)).length + n / 10) * 10 + (48 + n % 10 - 48)
          = (acc * 10 ^ (natDecimal (n / 10)).length) * 10 + n := by
        have : (acc * 10 ^ (natDecimal (n / 10)).length + n / 10) * 10
            = (acc * 10 ^ (natDecimal (n / 10)).length) * 10 + (n / 10) * 10 := by ring
        omega
      rw [hv, if_pos (by omega)]
      rw [parseDigits]
      rw [hlen, hX]

theorem parseLenU64_natDecimal (n : Nat) (h : n < 2 ^ 64) :
    parseLenU64 (natDecimal n) = .ok n := by
  have hd := natDecimal_digits n
  rw [parseLenU64,
    if_pos (utf8Valid_ascii _ (fun d hdm => by have := hd.2 d hdm; omega))]
  cases hnd : natDecimal n with
  | nil => exact absurd hnd hd.1
  | cons d ds =>
    have hdig : 48 ≤ d ∧ d ≤ 57 := hd.2 d (by rw [hnd]; simp)
    rw [parseU64str, if_neg (by omega : ¬d = 43), ← hnd]
    have := parseDigits_natDecimal n 0 (by simpa using h)
    simpa using this

theorem parseDigits_cases (l : List Nat) : ∀ acc,
    (∃ v, parseDigits acc l = .ok v) ∨ parseDigits acc l = .err (.other .parseInvalidDigit) ∨
      parseDigits acc l = .err (.other .parsePosOverflow) := by
  induction l with
  | nil => intro acc; exact Or.inl ⟨acc, rfl⟩
  | cons c r ih =>
    intro acc
    rw [parseDigits]
    split
    · split
      · exact ih _
      · exact Or.inr (Or.inr rfl)
    · exact Or.inr (Or.inl rfl)

theorem parseLenU64_total (s : List Nat) :
    (∃ v, parseLenU64 s = .ok v) ∨ ∃ c, parseLenU64 s = .err (.other c) := by
  rw [parseLenU64]
  split
  · cases s with
    | nil => exact Or.inr ⟨.parseEmpty, rfl⟩
    | cons c rest =>
      rw [parseU64str]
      split
      · split
        · exact Or.inr ⟨.parseInvalidDigit, rfl⟩
        · rcases parseDigits_cases rest 0 with ⟨v, hv⟩ | hv | hv
          · exact Or.inl ⟨v, hv⟩
          · exact Or.inr ⟨.parseInvalidDigit, hv⟩
          · exact Or.inr ⟨.parsePosOverflow, hv⟩
      · rcases parseDigits_cases (c :: rest) 0 with ⟨v, hv⟩ | hv | hv
        · exact Or.inl ⟨v, hv⟩
        · exact Or.inr ⟨.parseInvalidDigit, hv⟩
        · exact Or.inr ⟨.parsePosOverflow, hv⟩
  · exact Or.inr ⟨.utf8Error, rfl⟩

theorem parseLenU64_err_other (s : List Nat) (e : RError) (h : parseLenU64 s = .err e) :
    ∃ c, e = .other c := by
  rcases parseLenU64_total s with ⟨v, hv⟩ | ⟨c, hc⟩
  · rw [hv] at h; exact absurd h (by simp)
  · rw [hc] at h; exact ⟨c, (Out.err.inj h).symm⟩

/-! ## Unfolding lemmas for the fueled dispatcher -/

theorem respF_zero (input : List Nat) : parse_resp_fuel 0 input = .nofuel := rfl

theorem respF_nil (fuel : Nat) : parse_resp_fuel (fuel + 1) [] = .err .emptyInput := rfl

theorem respF_cons (fuel : Nat) (first : Nat) (rest : List Nat) :
    parse_resp_fuel (fuel + 1) (first :: rest) =
      if first = 43 then parse_simple_string rest
      else if first = 58 then parse_integers rest
      else if first = 36 then parse_bulk_strings rest
      else if first = 42 then parse_arrays_g (parse_resp_fuel fuel) rest
      else if first = 45 then parse_errors rest
      else .err .unknownSymbol := rfl

theorem parse_elems_zero (p : List Nat → Out (RESP × List Nat)) (left : List Nat) :
    parse_elems p 0 left = .ok ([], left) := rfl

theorem parse_elems_succ (p : List Nat → Out (RESP × List Nat)) (n : Nat) (left : List Nat) :
    parse_elems p (n + 1) left =
      obind (p left) fun et =>
      obind (parse_elems p n et.2) fun rl =>
      .ok (et.1 :: rl.1, rl.2) := rfl

/-! ## Consumption: a successful parse leaves a strictly shorter suffix -/

theorem scan_consume (input line rem : List Nat)
    (h : parse_everything_until_crlf input = .ok (line, rem)) :
    rem.length + 2 ≤ input.length ∧ rem <:+ input := by
  obtain ⟨hshape, _⟩ := (scan_ok_iff input line rem).mp h
  constructor
  · rw [hshape]; simp only [List.length_append, List.length_cons]; omega
  · exact ⟨line ++ [13, 10], by rw [hshape]; simp⟩

theorem check_null_len (input : List Nat) (h : check_null_value input = true) :
    4 ≤ input.length := by
  simp only [check_null_value, Bool.and_eq_true, decide_eq_true_eq, beq_iff_eq] at h
  exact h.1.1.1.1

theorem check_crlf_spec (input : List Nat) (index : Nat) (h : check_crlf_at_index input index = true) :
    index + 2 ≤ input.length ∧ input.getD index 0 = 13 ∧ input.getD (index + 1) 0 = 10 := by
  simp only [check_crlf_at_index, Bool.and_eq_true, decide_eq_true_eq, beq_iff_eq] at h
  exact ⟨h.1.1, h.1.2, h.2⟩

theorem line_parser_consume (input rem : List Nat) (mk : List Nat → RESP) (v : RESP)
    (h : obind (parse_everything_until_crlf input) (fun xy => .ok (mk xy.1, xy.2)) = .ok (v, rem)) :
    rem.length ≤ input.length ∧ rem <:+ input := by
  cases hs : parse_everything_until_crlf input with
  | ok lr =>
    rw [hs, obind_ok] at h
    have h2 : lr.2 = rem := congrArg Prod.snd (Out.ok.inj h)
    have hc := scan_consume input lr.1 lr.2 (by rw [hs])
    rw [h2] at hc
    exact ⟨by omega, hc.2⟩
  | err e => rw [hs] at h; exact absurd h (by simp [obind])
  | abort => rw [hs] at h; exact absurd h (by simp [obind])
  | nofuel => rw [hs] at h; exact absurd h (by simp [obind])

theorem obind_eq_ok {α β : Type} {x : Out α} {f : α → Out β} {b : β}
    (h : obind x f = .ok b) : ∃ a, x = .ok a ∧ f a = .ok b := by
  cases x with
  | ok a => exact ⟨a, rfl, h⟩
  | err e => simp [obind] at h
  | abort => simp [obind] at h
  | nofuel => simp [obind] at h

theorem obind_eq_err {α β : Type} {x : Out α} {f : α → Out β} {e : RError}
    (h : obind x f = .err e) : x = .err e ∨ ∃ a, x = .ok a ∧ f a = .err e := by
  cases x with
  | ok a => exact Or.inr ⟨a, rfl, h⟩
  | err e' => simp [obind] at h; rw [h]; exact Or.inl rfl
  | abort => simp [obind] at h
  | nofuel => simp [obind] at h

theorem obind_eq_nofuel {α β : Type} {x : Out α} {f : α → Out β}
    (h : obind x f = .nofuel) : x = .nofuel ∨ ∃ a, x = .ok a ∧ f a = .nofuel := by
  cases x with
  | ok a => exact Or.inr ⟨a, rfl, h⟩
  | err e => simp [obind] at h
  | abort => simp [obind] at h
  | nofuel => exact Or.inl rfl

theorem bulk_consume (input : List Nat) (vr : RESP × List Nat)
    (h : parse_bulk_strings input = .ok vr) :
    vr.2.length ≤ input.length ∧ vr.2 <:+ input := by
  simp only [parse_bulk_strings] at h
  split at h
  · rename_i hnull
    obtain ⟨r4, hs, hok⟩ := obind_eq_ok h
    have h4 : input.drop 4 = r4 := by
      have := check_null_len input hnull
      rw [sliceFrom_eq_ok _ _ (by omega)] at hs
      exact Out.ok.inj hs
    have hr : r4 = vr.2 := congrArg Prod.snd (Out.ok.inj hok)
    rw [← hr, ← h4]
    exact ⟨by rw [List.length_drop]; omega, List.drop_suffix 4 input⟩
  · obtain ⟨lr, hs, h⟩ := obind_eq_ok h
    obtain ⟨size, hp, h⟩ := obind_eq_ok h
    split at h
    · rename_i hcheck
      obtain ⟨hlen2, _, _⟩ := check_crlf_spec lr.2 size hcheck
      obtain ⟨payload, hpl, h⟩ := obind_eq_ok h
      obtain ⟨r2, hr2, h⟩ := obind_eq_ok h
      rw [sliceFrom_eq_ok _ _ (by omega)] at hr2
      have hd : lr.2.drop (size + 2) = r2 := Out.ok.inj hr2
      have hrem : r2 = vr.2 := congrArg Prod.snd (Out.ok.inj h)
      have hsc := scan_consume input lr.1 lr.2 (by rw [hs])
      rw [← hrem, ← hd]
      constructor
      · rw [List.length_drop]; omega
      · exact (List.drop_suffix _ _).trans hsc.2
    · exact absurd h (by simp)

theorem elems_consume (p : List Nat → Out (RESP × List Nat))
    (hp : ∀ x vr, p x = .ok vr → vr.2.length < x.length ∧ vr.2 <:+ x) :
    ∀ (n : Nat) (left : List Nat) (er : List RESP × List Nat),
      parse_elems p n left = .ok er → er.2.length ≤ left.length ∧ er.2 <:+ left := by
  intro n
  induction n with
  | zero =>
    intro left er h
    rw [parse_elems_zero] at h
    have : left = er.2 := congrArg Prod.snd (Out.ok.inj h)
    rw [← this]
    exact ⟨Nat.le_refl _, List.suffix_refl _⟩
  | succ n ih =>
    intro left er h
    rw [parse_elems_succ] at h
    obtain ⟨et, hpe, h⟩ := obind_eq_ok h
    obtain ⟨rl, hre, h⟩ := obind_eq_ok h
    have h1 := hp left et hpe
    have h2 := ih et.2 rl hre
    have hinj : (et.1 :: rl.1, rl.2) = er := Out.ok.inj h
    have h3 : rl.2 = er.2 := by rw [← hinj]
    rw [← h3]
    exact ⟨by omega, h2.2.trans h1.2⟩

theorem arrays_consume (p : List Nat → Out (RESP × List Nat))
    (hp : ∀ x vr, p x = .ok vr → vr.2.length < x.length ∧ vr.2 <:+ x)
    (input : List Nat) (vr : RESP × List Nat) (h : parse_arrays_g p input = .ok vr) :
    vr.2.length ≤ input.length ∧ vr.2 <:+ input := by
  simp only [parse_arrays_g] at h
  obtain ⟨lr, hs, h⟩ := obind_eq_ok h
  obtain ⟨size, hp2, h⟩ := obind_eq_ok h
  obtain ⟨u, hcap, h⟩ := obind_eq_ok h
  obtain ⟨rl, hre, h⟩ := obind_eq_ok h
  have hsc := scan_consume input lr.1 lr.2 (by rw [hs])
  have he := elems_consume p hp size lr.2 rl hre
  have : rl.2 = vr.2 := congrArg Prod.snd (Out.ok.inj h)
  rw [← this]
  exact ⟨by omega, he.2.trans hsc.2⟩

theorem consume_lift (first : Nat) (rest fin : List Nat)
    (h : fin.length ≤ rest.length ∧ fin <:+ rest) :
    fin.length < (first :: rest).length ∧ fin <:+ first :: rest :=
  ⟨by simp only [List.length_cons]; omega, h.2.trans (List.suffix_cons first rest)⟩

theorem resp_consume : ∀ (f : Nat) (input : List Nat) (vr : RESP × List Nat),
    parse_resp_fuel f input = .ok vr → vr.2.length < input.length ∧ vr.2 <:+ input := by
  intro f
  induction f with
  | zero => intro input vr h; rw [respF_zero] at h; exact absurd h (by simp)
  | succ f ih =>
    intro input vr h
    cases input with
    | nil => rw [respF_nil] at h; exact absurd h (by simp)
    | cons first rest =>
      rw [respF_cons] at h
      split at h
      · simp only [parse_simple_string] at h
        exact consume_lift first rest vr.2 (line_parser_consume rest vr.2 RESP.string vr.1 h)
      · split at h
        · simp only [parse_integers] at h
          exact consume_lift first rest vr.2 (line_parser_consume rest vr.2 RESP.integer vr.1 h)
        · split at h
          · exact consume_lift first rest vr.2 (bulk_consume rest vr h)
          · split at h
            · exact consume_lift first rest vr.2
                (arrays_consume (parse_resp_fuel f) ih rest vr h)
            · split at h
              · simp only [parse_errors] at h
                exact consume_lift first rest vr.2
                  (line_parser_consume rest vr.2 RESP.error vr.1 h)
              · exact absurd h (by simp)

/-! ## Fuel monotonicity -/

theorem elems_mono (p q : List Nat → Out (RESP × List Nat))
    (hpq : ∀ x, p x ≠ .nofuel → q x = p x) :
    ∀ (n : Nat) (left : List Nat), parse_elems p n left ≠ .nofuel →
      parse_elems q n left = parse_elems p n left := by
  intro n
  induction n with
  | zero => intro left _; rw [parse_elems_zero, parse_elems_zero]
  | succ n ih =>
    intro left h
    rw [parse_elems_succ] at h
    rw [parse_elems_succ, parse_elems_succ]
    cases hpl : p left with
    | ok et =>
      have hq2 : q left = .ok et := (hpq left (by rw [hpl]; simp)).trans hpl
      rw [hpl] at h
      simp only [obind_ok] at h
      have hel : parse_elems p n et.2 ≠ .nofuel := by
        intro hc; rw [hc, obind_nofuel] at h; exact h rfl
      simp only [hq2, hpl, obind_ok]
      rw [ih et.2 hel]
    | err e =>
      have hq2 : q left = .err e := (hpq left (by rw [hpl]; simp)).trans hpl
      simp only [hq2, hpl, obind_err]
    | abort =>
      have hq2 : q left = .abort := (hpq left (by rw [hpl]; simp)).trans hpl
      simp only [hq2, hpl, obind_abort]
    | nofuel =>
      rw [hpl, obind_nofuel] at h
      exact absurd rfl h

theorem arrays_mono (p q : List Nat → Out (RESP × List Nat))
    (hpq : ∀ x, p x ≠ .nofuel → q x = p x) (input : List Nat)
    (h : parse_arrays_g p input ≠ .nofuel) :
    parse_arrays_g q input = parse_arrays_g p input := by
  simp only [parse_arrays_g] at h ⊢
  cases hs : parse_everything_until_crlf input with
  | ok lr =>
    rw [hs] at h
    simp only [obind_ok] at h ⊢
    cases hp2 : parseLenU64 lr.1 with
    | ok size =>
      rw [hp2] at h
      simp only [obind_ok] at h ⊢
      cases hcap : vec_with_capacity_RESP size with
      | ok u =>
        rw [hcap] at h
        simp only [obind_ok] at h ⊢
        have hel : parse_elems p size lr.2 ≠ .nofuel := by
          intro hc; rw [hc, obind_nofuel] at h; exact h rfl
        rw [elems_mono p q hpq size lr.2 hel]
      | err e => simp only [obind_err]
      | abort => simp only [obind_abort]
      | nofuel => rw [hcap, obind_nofuel] at h; exact absurd rfl h
    | err e => simp only [obind_err]
    | abort => simp only [obind_abort]
    | nofuel => rw [hp2, obind_nofuel] at h; exact absurd rfl h
  | err e => simp only [obind_err]
  | abort => simp only [obind_abort]
  | nofuel => rw [hs, obind_nofuel] at h; exact absurd rfl h

theorem parse_resp_fuel_mono : ∀ (f f' : Nat), f ≤ f' → ∀ input : List Nat,
    parse_resp_fuel f input ≠ .nofuel → parse_resp_fuel f' input = parse_resp_fuel f input := by
  intro f
  induction f with
  | zero => intro f' hf input h; rw [respF_zero] at h; exact absurd rfl h
  | succ f ih =>
    intro f' hf input h
    cases f' with
    | zero => omega
    | succ g =>
      have hfg : f ≤ g := by omega
      cases input with
      | nil => rw [respF_nil, respF_nil]
      | cons first rest =>
        rw [respF_cons] at h
        rw [respF_cons, respF_cons]
        by_cases h43 : first = 43
        · simp only [if_pos h43]
        · simp only [if_neg h43] at h ⊢
          by_cases h58 : first = 58
          · simp only [if_pos h58]
          · simp only [if_neg h58] at h ⊢
            by_cases h36 : first = 36
            · simp only [if_pos h36]
            · simp only [if_neg h36] at h ⊢
              by_cases h42 : first = 42
              · simp only [if_pos h42] at h ⊢
                exact arrays_mono _ _ (fun x hx => ih g hfg x hx) rest h
              · simp only [if_neg h42]

/-! ## Fuel sufficiency -/

theorem scan_not_nofuel (input : List Nat) : parse_everything_until_crlf input ≠ .nofuel := by
  rcases scan_total input with ⟨l, r, h⟩ | h <;> rw [h] <;> simp

theorem parseLen_not_nofuel (s : List Nat) : parseLenU64 s ≠ .nofuel := by
  rcases parseLenU64_total s with ⟨v, h⟩ | ⟨c, h⟩ <;> rw [h] <;> simp

theorem sliceTo_not_nofuel (xs : List Nat) (i : Nat) : sliceTo xs i ≠ .nofuel := by
  simp only [sliceTo]; split <;> simp

theorem sliceFrom_not_nofuel (xs : List Nat) (i : Nat) : sliceFrom xs i ≠ .nofuel := by
  simp only [sliceFrom]; split <;> simp

theorem vec_not_nofuel (n : Nat) : vec_with_capacity_RESP n ≠ .nofuel := by
  simp only [vec_with_capacity_RESP]; split <;> simp

theorem line_not_nofuel (input : List Nat) (mk : List Nat → RESP) :
    obind (parse_everything_until_crlf input)
      (fun xy => (.ok (mk xy.1, xy.2) : Out (RESP × List Nat))) ≠ .nofuel := by
  intro hcon
  rcases obind_eq_nofuel hcon with hs | ⟨lr, _, h2⟩
  · exact scan_not_nofuel input hs
  · simp at h2

theorem bulk_not_nofuel (input : List Nat) : parse_bulk_strings input ≠ .nofuel := by
  intro hcon
  simp only [parse_bulk_strings] at hcon
  split at hcon
  · rcases obind_eq_nofuel hcon with hs | ⟨r4, _, h2⟩
    · exact sliceFrom_not_nofuel input 4 hs
    · simp at h2
  · rcases obind_eq_nofuel hcon with hs | ⟨lr, hs, h2⟩
    · exact scan_not_nofuel input hs
    · rcases obind_eq_nofuel h2 with hp | ⟨size, hp, h3⟩
      · exact parseLen_not_nofuel lr.1 hp
      · split at h3
        · rcases obind_eq_nofuel h3 with hsl | ⟨pl, hsl, h4⟩
          · exact sliceTo_not_nofuel lr.2 size hsl
          · rcases obind_eq_nofuel h4 with hsf | ⟨r2, hsf, h5⟩
            · exact sliceFrom_not_nofuel lr.2 (size + 2) hsf
            · simp at h5
        · simp at h3

theorem elems_not_nofuel (p : List Nat → Out (RESP × List Nat)) (F : Nat)
    (hp0 : ∀ x : List Nat, x.length < F → p x ≠ .nofuel)
    (hpc : ∀ x vr, p x = .ok vr → vr.2.length < x.length) :
    ∀ (n : Nat) (left : List Nat), left.length < F → parse_elems p n left ≠ .nofuel := by
  intro n
  induction n with
  | zero => intro left _; rw [parse_elems_zero]; simp
  | succ n ih =>
    intro left hl hcon
    rw [parse_elems_succ] at hcon
    rcases obind_eq_nofuel hcon with hpl | ⟨et, hpl, h2⟩
    · exact hp0 left hl hpl
    · rcases obind_eq_nofuel h2 with hel | ⟨rl, _, h3⟩
      · exact ih et.2 (by have := hpc left et hpl; omega) hel
      · simp at h3

theorem arrays_not_nofuel (p : List Nat → Out (RESP × List Nat)) (F : Nat)
    (hp0 : ∀ x : List Nat, x.length < F → p x ≠ .nofuel)
    (hpc : ∀ x vr, p x = .ok vr → vr.2.length < x.length)
    (input : List Nat) (hl : input.length ≤ F) : parse_arrays_g p input ≠ .nofuel := by
  intro hcon
  simp only [parse_arrays_g] at hcon
  rcases obind_eq_nofuel hcon with hs | ⟨lr, hs, h2⟩
  · exact scan_not_nofuel input hs
  · rcases obind_eq_nofuel h2 with hp2 | ⟨size, _, h3⟩
    · exact parseLen_not_nofuel lr.1 hp2
    · rcases obind_eq_nofuel h3 with hcap | ⟨u, _, h4⟩
      · exact vec_not_nofuel size hcap
      · rcases obind_eq_nofuel h4 with hel | ⟨rl, _, h5⟩
        · have hsc := scan_consume input lr.1 lr.2 (by rw [hs])
          exact elems_not_nofuel p F hp0 hpc size lr.2 (by omega) hel
        · simp at h5

theorem parse_resp_fuel_sufficient : ∀ (f : Nat) (input : List Nat), input.length < f →
    parse_resp_fuel f input ≠ .nofuel := by
  intro f
  induction f with
  | zero => intro input h; omega
  | succ f ih =>
    intro input hl
    cases input with
    | nil => rw [respF_nil]; simp
    | cons first rest =>
      have hrest : rest.length ≤ f := by
        simp only [List.length_cons] at hl; omega
      rw [respF_cons]
      by_cases h43 : first = 43
      · simp only [if_pos h43]
        exact line_not_nofuel rest RESP.string
      · simp only [if_neg h43]
        by_cases h58 : first = 58
        · simp only [if_pos h58]
          exact line_not_nofuel rest RESP.integer
        · simp only [if_neg h58]
          by_cases h36 : first = 36
          · simp only [if_pos h36]
            exact bulk_not_nofuel rest
          · simp only [if_neg h36]
            by_cases h42 : first = 42
            · simp only [if_pos h42]
              exact arrays_not_nofuel (parse_resp_fuel f) f (fun x hx => ih x hx)
                (fun x vr hxy => (resp_consume f x vr hxy).1) rest hrest
            · simp only [if_neg h42]
              by_cases h45 : first = 45
              · simp only [if_pos h45]
                exact line_not_nofuel rest RESP.error
              · simp only [if_neg h45]
                simp

/-! ## Round trip: canonical encodings decode to their value -/

theorem check_null_false_of_digit (d : Nat) (h48 : 48 ≤ d) (t : List Nat) :
    check_null_value (d :: t) = false := by
  simp [check_null_value]
  intro _ h45 _ _
  omega

theorem check_crlf_payload (payload extra : List Nat) :
    check_crlf_at_index (payload ++ (13 :: 10 :: extra)) payload.length = true := by
  have h2 : (payload ++ (13 :: 10 :: extra)).getD payload.length 0 = 13 := by
    rw [List.getD_append_right _ _ _ _ (Nat.le_refl _)]
    simp [List.getD]
  have h3 : (payload ++ (13 :: 10 :: extra)).getD (payload.length + 1) 0 = 10 := by
    rw [List.getD_append_right _ _ _ _ (by omega)]
    have : payload.length + 1 - payload.length = 1 := by omega
    rw [this]
    simp [List.getD]
  simp only [check_crlf_at_index, h2, h3, beq_self_eq_true, Bool.and_true]
  simp only [decide_eq_true_eq, List.length_append, List.length_cons]
  omega

theorem take_drop_payload (payload extra : List Nat) :
    (payload ++ (13 :: 10 :: extra)).take payload.length = payload ∧
      (payload ++ (13 :: 10 :: extra)).drop (payload.length + 2) = extra := by
  constructor
  · exact List.take_left payload _
  · rw [show payload ++ (13 :: 10 :: extra) = (payload ++ [13, 10]) ++ extra by simp]
    exact List.drop_left' (by simp)

theorem enc_length_pos (v : RESP) : 1 ≤ (enc v).length := by
  cases v <;> simp [enc]

theorem bulk_roundtrip (payload extra : List Nat) (h : payload.length < 2 ^ 64) :
    parse_bulk_strings (natDecimal payload.length ++ (13 :: 10 :: (payload ++ (13 :: 10 :: extra))))
      = .ok (.bulkString payload, extra) := by
  obtain ⟨hne, hdig⟩ := natDecimal_digits payload.length
  have hcrlf : hasCrlf (natDecimal payload.length) = false := natDecimal_no_crlf _
  have hscan := (scan_ok_iff (natDecimal payload.length ++ (13 :: 10 :: (payload ++ (13 :: 10 :: extra))))
      (natDecimal payload.length) (payload ++ (13 :: 10 :: extra))).mpr ⟨rfl, hcrlf⟩
  have hnull : check_null_value
      (natDecimal payload.length ++ (13 :: 10 :: (payload ++ (13 :: 10 :: extra)))) = false := by
    cases hnd : natDecimal payload.length with
    | nil => exact absurd hnd hne
    | cons d ds =>
      have hd48 : 48 ≤ d := (hdig d (by rw [hnd]; simp)).1
      rw [List.cons_append]
      exact check_null_false_of_digit d hd48 _
  simp only [parse_bulk_strings, hnull, Bool.false_eq_true, if_false]
  rw [hscan]
  simp only [obind_ok]
  rw [parseLenU64_natDecimal payload.length h]
  simp only [obind_ok]
  rw [check_crlf_payload payload extra]
  simp only [if_true]
  rw [sliceTo_eq_ok _ _ (by simp), (take_drop_payload payload extra).1]
  simp only [obind_ok]
  rw [sliceFrom_eq_ok _ _ (by simp only [List.length_append, List.length_cons]; omega),
    (take_drop_payload payload extra).2]
  simp only [obind_ok]

theorem elems_enc (f : Nat)
    (IH : ∀ (v : RESP) (extra : List Nat), validEncB v = true → vecFitsB v = true →
      (enc v).length ≤ f → parse_resp_fuel f (enc v ++ extra) = .ok (v, extra)) :
    ∀ (xs : List RESP) (extra : List Nat), validEncListB xs = true → vecFitsListB xs = true →
      (encList xs).length ≤ f →
      parse_elems (parse_resp_fuel f) xs.length (encList xs ++ extra) = .ok (xs, extra) := by
  intro xs
  induction xs with
  | nil =>
    intro extra _ _ _
    rw [encList, List.nil_append, List.length_nil, parse_elems_zero]
  | cons x t ih =>
    intro extra hv hw hlen
    simp only [validEncListB, Bool.and_eq_true] at hv
    simp only [vecFitsListB, Bool.and_eq_true] at hw
    have hlsum : (encList (x :: t)).length = (enc x).length + (encList t).length := by
      rw [encList]; simp
    rw [List.length_cons, parse_elems_succ]
    rw [encList, List.append_assoc]
    have h1 : parse_resp_fuel f (enc x ++ (encList t ++ extra)) = .ok (x, encList t ++ extra) :=
      IH x (encList t ++ extra) hv.1 hw.1 (by omega)
    rw [h1]
    simp only [obind_ok]
    rw [ih extra hv.2 hw.2 (by omega)]
    simp only [obind_ok]

theorem parse_respF_enc : ∀ (f : Nat) (v : RESP) (extra : List Nat), validEncB v = true →
    vecFitsB v = true → (enc v).length ≤ f →
    parse_resp_fuel f (enc v ++ extra) = .ok (v, extra) := by
  intro f
  induction f with
  | zero =>
    intro v extra _ _ hlen
    have := enc_length_pos v
    omega
  | succ f ih =>
    intro v extra hv hw hlen
    cases v with
    | string s =>
      simp only [validEncB, Bool.not_eq_true'] at hv
      rw [show enc (.string s) ++ extra = 43 :: (s ++ (13 :: 10 :: extra)) by simp [enc]]
      rw [respF_cons, if_pos rfl]
      simp only [parse_simple_string]
      rw [(scan_ok_iff (s ++ (13 :: 10 :: extra)) s extra).mpr ⟨rfl, hv⟩]
      simp only [obind_ok]
    | error s =>
      simp only [validEncB, Bool.not_eq_true'] at hv
      rw [show enc (.error s) ++ extra = 45 :: (s ++ (13 :: 10 :: extra)) by simp [enc]]
      rw [respF_cons, if_neg (by omega), if_neg (by omega), if_neg (by omega), if_neg (by omega),
        if_pos rfl]
      simp only [parse_errors]
      rw [(scan_ok_iff (s ++ (13 :: 10 :: extra)) s extra).mpr ⟨rfl, hv⟩]
      simp only [obind_ok]
    | integer s =>
      simp only [validEncB, Bool.not_eq_true'] at hv
      rw [show enc (.integer s) ++ extra = 58 :: (s ++ (13 :: 10 :: extra)) by simp [enc]]
      rw [respF_cons, if_neg (by omega), if_pos rfl]
      simp only [parse_integers]
      rw [(scan_ok_iff (s ++ (13 :: 10 :: extra)) s extra).mpr ⟨rfl, hv⟩]
      simp only [obind_ok]
    | bulkString s =>
      simp only [validEncB, decide_eq_true_eq] at hv
      rw [show enc (.bulkString s) ++ extra
          = 36 :: (natDecimal s.length ++ (13 :: 10 :: (s ++ (13 :: 10 :: extra)))) by
        simp [enc]]
      rw [respF_cons, if_neg (by omega), if_neg (by omega), if_pos rfl]
      exact bulk_roundtrip s extra hv
    | nil =>
      rw [show enc .nil ++ extra = 36 :: (45 :: 49 :: 13 :: 10 :: extra) by simp [enc]]
      rw [respF_cons, if_neg (by omega), if_neg (by omega), if_pos rfl]
      have hnull : check_null_value (45 :: 49 :: 13 :: 10 :: extra) = true := by
        simp [check_null_value, List.getD]
      simp only [parse_bulk_strings, hnull, if_true]
      rw [sliceFrom_eq_ok _ _ (by simp)]
      simp only [obind_ok]
      rfl
    | array xs =>
      simp only [validEncB, Bool.and_eq_true, decide_eq_true_eq] at hv
      simp only [vecFitsB, Bool.and_eq_true, decide_eq_true_eq] at hw
      have hk64 : xs.length < 2 ^ 64 := hv.1
      rw [show enc (.array xs) ++ extra
          = 42 :: (natDecimal xs.length ++ (13 :: 10 :: (encList xs ++ extra))) by
        simp [enc]]
      rw [respF_cons, if_neg (by omega), if_neg (by omega), if_neg (by omega), if_pos rfl]
      simp only [parse_arrays_g]
      have hcrlf : hasCrlf (natDecimal xs.length) = false := natDecimal_no_crlf _
      rw [(scan_ok_iff (natDecimal xs.length ++ (13 :: 10 :: (encList xs ++ extra)))
        (natDecimal xs.length) (encList xs ++ extra)).mpr ⟨rfl, hcrlf⟩]
      simp only [obind_ok]
      rw [parseLenU64_natDecimal xs.length hk64]
      simp only [obind_ok]
      rw [show vec_with_capacity_RESP xs.length = .ok () by
        simp [vec_with_capacity_RESP, hw.1]]
      simp only [obind_ok]
      have hlen2 : (encList xs).length ≤ f := by
        have h1 : 1 ≤ (natDecimal xs.length).length :=
          List.length_pos.mpr (natDecimal_digits xs.length).1
        have h2 : (enc (.array xs)).length
            = (natDecimal xs.length).length + ((encList xs).length + 1 + 1) + 1 := by
          simp [enc]
        omega
      rw [elems_enc f ih xs extra hv.2 hw.2 hlen2]
      simp only [obind_ok]

/-! ## Shape lemmas for the validation checks -/

theorem append_cancel (x y r : List Nat) (h : x ++ r = y ++ r) : x = y :=
  List.append_cancel_right h

theorem check_null_shape (l : List Nat) (h : check_null_value l = true) :
    ∃ t, l = 45 :: 49 :: 13 :: 10 :: t := by
  match l, h with
  | [], h => simp [check_null_value] at h
  | [a], h => simp [check_null_value] at h
  | [a, b], h => simp [check_null_value] at h
  | [a, b, c], h => simp [check_null_value] at h
  | a :: b :: c :: d :: t, h =>
    simp [check_null_value, List.getD] at h
    refine ⟨t, ?_⟩
    simp_all

theorem check_null_cons (extra : List Nat) :
    check_null_value (45 :: 49 :: 13 :: 10 :: extra) = true := by
  simp [check_null_value, List.getD]

theorem check_crlf_shape (l : List Nat) (i : Nat) (h : check_crlf_at_index l i = true) :
    l = l.take i ++ (13 :: 10 :: l.drop (i + 2)) ∧ (l.take i).length = i := by
  obtain ⟨hlen, h13, h10⟩ := check_crlf_spec l i h
  have hi : i < l.length := by omega
  have hi1 : i + 1 < l.length := by omega
  have g13 : l[i] = 13 := by rw [← List.getD_eq_getElem l 0 hi]; exact h13
  have g10 : l[i + 1] = 10 := by rw [← List.getD_eq_getElem l 0 hi1]; exact h10
  constructor
  · calc l = l.take i ++ l.drop i := (List.take_append_drop i l).symm
      _ = l.take i ++ (13 :: 10 :: l.drop (i + 2)) := by
          rw [List.drop_eq_getElem_cons hi, g13, List.drop_eq_getElem_cons hi1, g10]
  · simp [List.length_take]; omega

theorem check_null_agrees (p a b : List Nat) (hp : 4 ≤ p.length) :
    check_null_value (p ++ a) = check_null_value (p ++ b) := by
  have hg : ∀ (k : Nat), k < 4 → ∀ c : List Nat, (p ++ c).getD k 0 = p.getD k 0 := by
    intro k hk c
    exact List.getD_append _ _ _ _ (by omega)
  simp only [check_null_value, hg 0 (by omega), hg 1 (by omega), hg 2 (by omega),
    hg 3 (by omega), List.length_append]
  have h4a : decide (4 ≤ p.length + a.length) = true := by simp; omega
  have h4b : decide (4 ≤ p.length + b.length) = true := by simp; omega
  rw [h4a, h4b]

/-! ## Locality: a successful parse depends only on the bytes it consumes -/

theorem line_loc (pre rem : List Nat) (mk : List Nat → RESP) (v : RESP)
    (h : obind (parse_everything_until_crlf (pre ++ rem))
      (fun xy => (.ok (mk xy.1, xy.2) : Out (RESP × List Nat))) = .ok (v, rem)) (ext : List Nat) :
    obind (parse_everything_until_crlf (pre ++ ext))
      (fun xy => (.ok (mk xy.1, xy.2) : Out (RESP × List Nat))) = .ok (v, ext) := by
  obtain ⟨lr, hs, h2⟩ := obind_eq_ok h
  have hv2 : mk lr.1 = v ∧ lr.2 = rem := by
    have := Out.ok.inj h2
    exact ⟨congrArg Prod.fst this, congrArg Prod.snd this⟩
  obtain ⟨hshape, hnone⟩ := (scan_ok_iff (pre ++ rem) lr.1 lr.2).mp (by rw [hs])
  rw [hv2.2] at hshape
  have hpre : pre = lr.1 ++ [13, 10] := by
    apply append_cancel _ _ rem
    rw [hshape]; simp
  rw [hpre, List.append_assoc]
  rw [(scan_ok_iff (lr.1 ++ ([13, 10] ++ ext)) lr.1 ext).mpr ⟨by simp, hnone⟩]
  simp only [obind_ok]
  rw [hv2.1]

theorem bulk_loc (pre rem : List Nat) (v : RESP)
    (h : parse_bulk_strings (pre ++ rem) = .ok (v, rem)) (ext : List Nat) :
    parse_bulk_strings (pre ++ ext) = .ok (v, ext) := by
  simp only [parse_bulk_strings] at h
  split at h
  · rename_i hnull
    obtain ⟨t, hshape⟩ := check_null_shape _ hnull
    obtain ⟨r4, hs, hok⟩ := obind_eq_ok h
    have h4 : (pre ++ rem).drop 4 = r4 := by
      rw [sliceFrom_eq_ok _ _ (by rw [hshape]; simp)] at hs
      exact Out.ok.inj hs
    have hvr : v = .nil ∧ r4 = rem := by
      have := Out.ok.inj hok
      exact ⟨(congrArg Prod.fst this).symm, congrArg Prod.snd this⟩
    have ht : t = rem := by
      rw [← hvr.2, ← h4, hshape]
      rfl
    have hpre : pre = [45, 49, 13, 10] := by
      apply append_cancel _ _ rem
      rw [hshape, ht]
      rfl
    rw [hpre]
    simp only [parse_bulk_strings]
    rw [show ([45, 49, 13, 10] : List Nat) ++ ext = 45 :: 49 :: 13 :: 10 :: ext from rfl]
    rw [if_pos (check_null_cons ext)]
    rw [sliceFrom_eq_ok _ _ (by simp)]
    simp only [obind_ok]
    rw [hvr.1]
    rfl
  · rename_i hnull
    obtain ⟨lr, hs, h2⟩ := obind_eq_ok h
    obtain ⟨size, hp, h3⟩ := obind_eq_ok h2
    split at h3
    · rename_i hcheck
      obtain ⟨hlshape, hltake⟩ := check_crlf_shape lr.2 size hcheck
      obtain ⟨hlen2, _, _⟩ := check_crlf_spec lr.2 size hcheck
      obtain ⟨payload, hpl, h4⟩ := obind_eq_ok h3
      obtain ⟨r2, hr2, h5⟩ := obind_eq_ok h4
      rw [sliceTo_eq_ok _ _ (by omega)] at hpl
      rw [sliceFrom_eq_ok _ _ (by omega)] at hr2
      have hpl2 : lr.2.take size = payload := Out.ok.inj hpl
      have hr22 : lr.2.drop (size + 2) = r2 := Out.ok.inj hr2
      have hvr : v = .bulkString payload ∧ r2 = rem := by
        have := Out.ok.inj h5
        exact ⟨(congrArg Prod.fst this).symm, congrArg Prod.snd this⟩
      obtain ⟨hshape, hnone⟩ := (scan_ok_iff (pre ++ rem) lr.1 lr.2).mp (by rw [hs])
      have hlr2 : lr.2 = payload ++ (13 :: 10 :: rem) := by
        rw [← hvr.2, ← hr22, ← hpl2]
        exact hlshape
      have hplen : payload.length = size := by rw [← hpl2]; exact hltake
      have hpre : pre = lr.1 ++ (13 :: 10 :: (payload ++ [13, 10])) := by
        apply append_cancel _ _ rem
        rw [hshape, hlr2]
        simp
      have hpre4 : 4 ≤ (lr.1 ++ (13 :: 10 :: (payload ++ [13, 10]))).length := by
        simp only [List.length_append, List.length_cons]
        omega
      have hnullext : check_null_value ((lr.1 ++ (13 :: 10 :: (payload ++ [13, 10]))) ++ ext)
          = false := by
        rw [check_null_agrees _ ext rem hpre4, ← hpre]
        simpa using hnull
      rw [hpre]
      simp only [parse_bulk_strings, hnullext, Bool.false_eq_true, if_false]
      rw [show ((lr.1 ++ (13 :: 10 :: (payload ++ [13, 10]))) ++ ext)
          = lr.1 ++ (13 :: 10 :: (payload ++ (13 :: 10 :: ext))) by simp]
      rw [(scan_ok_iff (lr.1 ++ (13 :: 10 :: (payload ++ (13 :: 10 :: ext)))) lr.1
        (payload ++ (13 :: 10 :: ext))).mpr ⟨rfl, hnone⟩]
      simp only [obind_ok]
      rw [hp]
      simp only [obind_ok]
      rw [← hplen, check_crlf_payload payload ext]
      simp only [if_true]
      rw [sliceTo_eq_ok _ _ (by simp), (take_drop_payload payload ext).1]
      simp only [obind_ok]
      rw [sliceFrom_eq_ok _ _ (by simp only [List.length_append, List.length_cons]; omega),
        (take_drop_payload payload ext).2]
      simp only [obind_ok]
      rw [hvr.1]
    · exact absurd h3 (by simp)

theorem elems_loc (p : List Nat → Out (RESP × List Nat))
    (hc : ∀ x vr, p x = .ok vr → vr.2.length < x.length ∧ vr.2 <:+ x)
    (hl : ∀ (preE rem : List Nat) (v : RESP), p (preE ++ rem) = .ok (v, rem) →
      ∀ ext, p (preE ++ ext) = .ok (v, ext)) :
    ∀ (n : Nat) (preE fin : List Nat) (els : List RESP),
      parse_elems p n (preE ++ fin) = .ok (els, fin) →
      ∀ ext, parse_elems p n (preE ++ ext) = .ok (els, ext) := by
  intro n
  induction n with
  | zero =>
    intro preE fin els h ext
    rw [parse_elems_zero] at h
    have hinj : (([] : List RESP), preE ++ fin) = (els, fin) := Out.ok.inj h
    have hels : ([] : List RESP) = els := congrArg Prod.fst hinj
    have hpf : preE ++ fin = fin := congrArg Prod.snd hinj
    have hpe : preE = [] := by
      have := congrArg List.length hpf
      simp at this
      exact this
    rw [hpe, List.nil_append, parse_elems_zero, ← hels]
  | succ n ih =>
    intro preE fin els h ext
    rw [parse_elems_succ] at h
    obtain ⟨et, hpe, h2⟩ := obind_eq_ok h
    obtain ⟨rl, hre, h3⟩ := obind_eq_ok h2
    have hinj : (et.1 :: rl.1, rl.2) = (els, fin) := Out.ok.inj h3
    have hels : et.1 :: rl.1 = els := congrArg Prod.fst hinj
    have hfin : rl.2 = fin := congrArg Prod.snd hinj
    have hsuf2 : rl.2 <:+ et.2 := (elems_consume p hc n et.2 rl hre).2
    obtain ⟨preE2, hE2⟩ : fin <:+ et.2 := hfin ▸ hsuf2
    have hsuf1 : et.2 <:+ preE ++ fin := (hc _ _ hpe).2
    obtain ⟨X, hX⟩ := hsuf1
    have hXp : X ++ preE2 = preE := by
      apply append_cancel _ _ fin
      rw [List.append_assoc, hE2, hX]
    have hpX : p (X ++ et.2) = .ok (et.1, et.2) := by rw [hX, hpe]
    have hploc := hl X et.2 et.1 hpX
    have hre2 : parse_elems p n (preE2 ++ fin) = .ok (rl.1, fin) := by
      rw [hE2, hre, ← hfin]
    rw [parse_elems_succ, ← hXp, List.append_assoc]
    rw [hploc (preE2 ++ ext)]
    simp only [obind_ok]
    rw [ih preE2 fin rl.1 hre2 ext]
    simp only [obind_ok]
    rw [hels]

theorem arrays_loc (p : List Nat → Out (RESP × List Nat))
    (hc : ∀ x vr, p x = .ok vr → vr.2.length < x.length ∧ vr.2 <:+ x)
    (hl : ∀ (preE rem : List Nat) (v : RESP), p (preE ++ rem) = .ok (v, rem) →
      ∀ ext, p (preE ++ ext) = .ok (v, ext))
    (pre rem : List Nat) (v : RESP)
    (h : parse_arrays_g p (pre ++ rem) = .ok (v, rem)) (ext : List Nat) :
    parse_arrays_g p (pre ++ ext) = .ok (v, ext) := by
  simp only [parse_arrays_g] at h
  obtain ⟨lr, hs, h2⟩ := obind_eq_ok h
  obtain ⟨size, hp, h3⟩ := obind_eq_ok h2
  obtain ⟨u, hcap, h4⟩ := obind_eq_ok h3
  obtain ⟨rl, hre, h5⟩ := obind_eq_ok h4
  have hinj : (RESP.array rl.1, rl.2) = (v, rem) := Out.ok.inj h5
  have hv1 : RESP.array rl.1 = v := congrArg Prod.fst hinj
  have hv2 : rl.2 = rem := congrArg Prod.snd hinj
  obtain ⟨hshape, hnone⟩ := (scan_ok_iff (pre ++ rem) lr.1 lr.2).mp (by rw [hs])
  have hsufE : rl.2 <:+ lr.2 := (elems_consume p hc size lr.2 rl hre).2
  obtain ⟨preE, hpreE⟩ : rem <:+ lr.2 := hv2 ▸ hsufE
  have hpre : pre = lr.1 ++ (13 :: 10 :: preE) := by
    apply append_cancel _ _ rem
    rw [hshape, ← hpreE]
    simp
  rw [hpre]
  simp only [parse_arrays_g]
  rw [show ((lr.1 ++ (13 :: 10 :: preE)) ++ ext) = lr.1 ++ (13 :: 10 :: (preE ++ ext)) by simp]
  rw [(scan_ok_iff (lr.1 ++ (13 :: 10 :: (preE ++ ext))) lr.1 (preE ++ ext)).mpr ⟨rfl, hnone⟩]
  simp only [obind_ok]
  rw [hp]
  simp only [obind_ok]
  rw [hcap]
  simp only [obind_ok]
  have hre2 : parse_elems p size (preE ++ rem) = .ok (rl.1, rem) := by
    rw [hpreE, hre, ← hv2]
  rw [elems_loc p hc hl size preE rem rl.1 hre2 ext]
  simp only [obind_ok]
  rw [hv1]

theorem respF_loc : ∀ (f : Nat) (pre rem : List Nat) (v : RESP),
    parse_resp_fuel f (pre ++ rem) = .ok (v, rem) →
    ∀ ext, parse_resp_fuel f (pre ++ ext) = .ok (v, ext) := by
  intro f
  induction f with
  | zero => intro pre rem v h ext; rw [respF_zero] at h; exact absurd h (by simp)
  | succ f ih =>
    intro pre rem v h ext
    cases pre with
    | nil =>
      have hcon := (resp_consume (f + 1) rem (v, rem) (by simpa using h)).1
      exact absurd hcon (lt_irrefl _)
    | cons first pre' =>
      rw [List.cons_append] at h
      rw [List.cons_append]
      rw [respF_cons] at h
      rw [respF_cons]
      by_cases h43 : first = 43
      · simp only [if_pos h43] at h ⊢
        simp only [parse_simple_string] at h ⊢
        exact line_loc pre' rem RESP.string v h ext
      · simp only [if_neg h43] at h ⊢
        by_cases h58 : first = 58
        · simp only [if_pos h58] at h ⊢
          simp only [parse_integers] at h ⊢
          exact line_loc pre' rem RESP.integer v h ext
        · simp only [if_neg h58] at h ⊢
          by_cases h36 : first = 36
          · simp only [if_pos h36] at h ⊢
            exact bulk_loc pre' rem v h ext
          · simp only [if_neg h36] at h ⊢
            by_cases h42 : first = 42
            · simp only [if_pos h42] at h ⊢
              exact arrays_loc (parse_resp_fuel f) (resp_consume f) ih pre' rem v h ext
            · simp only [if_neg h42] at h ⊢
              by_cases h45 : first = 45
              · simp only [if_pos h45] at h ⊢
                simp only [parse_errors] at h ⊢
                exact line_loc pre' rem RESP.error v h ext
              · simp only [if_neg h45] at h ⊢
                exact absurd h (by simp)

/-! ## Wrapper-level corollaries -/

theorem parse_resp_eq_fuel (input : List Nat) (f : Nat) (hf : input.length < f) :
    parse_resp_fuel f input = parse_resp input := by
  rw [parse_resp]
  exact parse_resp_fuel_mono (input.length + 1) f (by omega) input
    (parse_resp_fuel_sufficient (input.length + 1) input (by omega))

theorem parse_resp_cons (first : Nat) (rest : List Nat) :
    parse_resp (first :: rest) =
      if first = 43 then parse_simple_string rest
      else if first = 58 then parse_integers rest
      else if first = 36 then parse_bulk_strings rest
      else if first = 42 then parse_arrays_g (parse_resp_fuel (rest.length + 1)) rest
      else if first = 45 then parse_errors rest
      else .err .unknownSymbol := by
  simp only [parse_resp, List.length_cons]
  exact respF_cons (rest.length + 1) first rest

theorem parse_resp_enc (v : RESP) (extra : List Nat) (hv : validEncB v = true)
    (hw : vecFitsB v = true) : parse_resp (enc v ++ extra) = .ok (v, extra) := by
  rw [parse_resp]
  exact parse_respF_enc _ v extra hv hw (by simp only [List.length_append]; omega)

/-! ## Error propagation through the element loop -/

theorem elems_ep (f : Nat)
    (IH : ∀ (v : RESP) (extra : List Nat), validEncB v = true → vecFitsB v = true →
      (enc v).length ≤ f → parse_resp_fuel f (enc v ++ extra) = .ok (v, extra)) :
    ∀ (goods : List RESP) (n : Nat) (rest : List Nat) (e : RError),
      validEncListB goods = true → vecFitsListB goods = true →
      (encList goods).length ≤ f → goods.length < n →
      parse_resp_fuel f rest = .err e →
      parse_elems (parse_resp_fuel f) n (encList goods ++ rest) = .err e := by
  intro goods
  induction goods with
  | nil =>
    intro n rest e _ _ _ hn herr
    cases n with
    | zero => omega
    | succ m =>
      rw [encList, List.nil_append, parse_elems_succ, herr]
      simp only [obind_err]
  | cons g t ih =>
    intro n rest e hv hw hlen hn herr
    simp only [validEncListB, Bool.and_eq_true] at hv
    simp only [vecFitsListB, Bool.and_eq_true] at hw
    cases n with
    | zero => simp at hn
    | succ m =>
      have hlsum : (encList (g :: t)).length = (enc g).length + (encList t).length := by
        rw [encList]; simp
      rw [parse_elems_succ, encList, List.append_assoc]
      rw [IH g (encList t ++ rest) hv.1 hw.1 (by omega)]
      simp only [obind_ok]
      rw [ih m rest e hv.2 hw.2 (by omega) (by simp only [List.length_cons] at hn; omega) herr]
      simp only [obind_err]

/-! ## The claims -/

/-- C1: for every `n` and every payload of exactly `n` bytes, decoding the
buffer `$<n>\r\n<payload>\r\n` followed by any extra bytes succeeds and
returns `BulkString` holding exactly those `n` payload bytes, with the
remainder being the bytes after the trailing CRLF (empty when the bulk
string is the entire buffer, i.e. `extra = []`). The bound `n < 2^64` is
the implicit domain of the Rust code, whose slice lengths are `usize`. -/
theorem claim1_bulk_string_decode (n : Nat) (payload extra : List Nat)
    (hn : n < 2 ^ 64) (hp : payload.length = n) :
    parse_resp (36 :: (natDecimal n ++ (13 :: 10 :: (payload ++ (13 :: 10 :: extra)))))
      = .ok (.bulkString payload, extra) := by
  subst hp
  have h := parse_resp_enc (.bulkString payload) extra
    (by simp only [validEncB, decide_eq_true_eq]; exact hn) (by simp [vecFitsB])
  rw [show enc (.bulkString payload) ++ extra
      = 36 :: (natDecimal payload.length ++ (13 :: 10 :: (payload ++ (13 :: 10 :: extra)))) by
    simp [enc]] at h
  exact h

/-- Witness for C1 at `n = 3`, payload `foo`, extra `x`. -/
theorem claim1_witness : 3 < 2 ^ 64 ∧ ([102, 111, 111] : List Nat).length = 3 ∧
    parse_resp (36 :: (natDecimal 3 ++ (13 :: 10 :: ([102, 111, 111] ++ (13 :: 10 :: [120])))))
      = .ok (.bulkString [102, 111, 111], [120]) :=
  ⟨by norm_num, rfl, claim1_bulk_string_decode 3 [102, 111, 111] [120] (by norm_num) rfl⟩

/-- C2: whenever the bulk-string length line scans and converts to `L`,
but fewer than `L + 2` bytes remain after the length line, or the two
bytes at positions `L` and `L + 1` of that remainder are not `\r\n`,
decoding fails with `IncorrectFormat` — an `Out.err`, so in particular
neither an out-of-bounds fault (`Out.abort`) nor any other outcome. -/
theorem claim2_bulk_incorrect_format (input line rem : List Nat) (L : Nat)
    (hscan : parse_everything_until_crlf input = .ok (line, rem))
    (hlen : parseLenU64 line = .ok L)
    (hbad : rem.length < L + 2 ∨ ¬(rem.getD L 0 = 13 ∧ rem.getD (L + 1) 0 = 10)) :
    parse_resp (36 :: input) = .err .incorrectFormat := by
  have hnull : check_null_value input = false := by
    cases hcnv : check_null_value input with
    | false => rfl
    | true =>
      obtain ⟨t, hshape⟩ := check_null_shape input hcnv
      have hsc2 : parse_everything_until_crlf input = .ok ([45, 49], t) := by
        rw [hshape]
        exact (scan_ok_iff (45 :: 49 :: 13 :: 10 :: t) [45, 49] t).mpr ⟨rfl, rfl⟩
      rw [hsc2] at hscan
      have hinj : ([45, 49], t) = (line, rem) := Out.ok.inj hscan
      have hline : [45, 49] = line := congrArg Prod.fst hinj
      rw [← hline] at hlen
      have hbadlen : parseLenU64 [45, 49] = .err (.other .parseInvalidDigit) := rfl
      rw [hbadlen] at hlen
      exact absurd hlen (by simp)
  have hcheck : check_crlf_at_index rem L = false := by
    cases hc : check_crlf_at_index rem L with
    | false => rfl
    | true =>
      obtain ⟨hl2, h13, h10⟩ := check_crlf_spec rem L hc
      rcases hbad with hb | hb
      · omega
      · exact absurd ⟨h13, h10⟩ hb
  rw [parse_resp_cons, if_neg (by omega), if_neg (by omega), if_pos rfl]
  simp only [parse_bulk_strings, hnull, Bool.false_eq_true, if_false]
  rw [hscan]
  simp only [obind_ok]
  rw [hlen]
  simp only [obind_ok]
  simp only [hcheck, Bool.false_eq_true, if_false]

/-- Witness for C2 on the repository's own test vector `$4\r\nfoo\r\n`. -/
theorem claim2_witness :
    parse_everything_until_crlf [52, 13, 10, 102, 111, 111, 13, 10]
      = .ok ([52], [102, 111, 111, 13, 10]) ∧
    parseLenU64 [52] = .ok 4 ∧
    ([102, 111, 111, 13, 10] : List Nat).length < 4 + 2 ∧
    parse_resp [36, 52, 13, 10, 102, 111, 111, 13, 10] = .err .incorrectFormat :=
  ⟨rfl, rfl, by norm_num,
    claim2_bulk_incorrect_format [52, 13, 10, 102, 111, 111, 13, 10] [52]
      [102, 111, 111, 13, 10] 4 rfl rfl (Or.inl (by norm_num))⟩

/-- Every list of `nil` values is validly encoded. -/
theorem validEncListB_replicate_nil (n : Nat) :
    validEncListB (List.replicate n RESP.nil) = true := by
  induction n with
  | zero => simp [validEncListB]
  | succ n ih => rw [List.replicate_succ]; simp [validEncListB, validEncB, ih]

/-- Any array frame whose declared count is representable in `u64` but
asks `Vec::with_capacity` for more than `isize::MAX` bytes panics before
looking at a single element, whatever bytes follow the count line. -/
theorem capacity_abort_general (k : Nat) (body : List Nat) (hk : k < 2 ^ 64)
    (hcap : ¬32 * k ≤ isizeMax) :
    parse_resp (42 :: (natDecimal k ++ (13 :: 10 :: body))) = .abort := by
  rw [parse_resp_cons, if_neg (by omega), if_neg (by omega), if_neg (by omega), if_pos rfl]
  simp only [parse_arrays_g]
  rw [(scan_ok_iff (natDecimal k ++ (13 :: 10 :: body)) (natDecimal k) body).mpr
    ⟨rfl, natDecimal_no_crlf k⟩]
  simp only [obind_ok]
  rw [parseLenU64_natDecimal k hk]
  simp only [obind_ok]
  have hc : vec_with_capacity_RESP k = .abort := by
    simp only [vec_with_capacity_RESP]
    rw [if_neg hcap]
  rw [hc]
  simp only [obind_abort]

/-- C3 (counterexample): the claim as stated, "for every k ≥ 0", fails at
`k = 2^58`: the buffer `*288230376151711744\r\n` followed by `2^58`
validly encoded nil elements — a legal byte buffer of about `1.4 · 10^18`
bytes, well under `isize::MAX` — makes `parse_arrays` request
`32 · 2^58 = 2^63` bytes from `Vec::with_capacity`, which exceeds
`isize::MAX` and panics (`Out.abort`) before decoding a single element,
instead of yielding the `Array` of those `2^58` values. -/
theorem claim3_counterexample :
    validEncListB (List.replicate (2 ^ 58) RESP.nil) = true ∧
    (List.replicate (2 ^ 58) RESP.nil).length = 2 ^ 58 ∧
    parse_resp (42 :: (natDecimal (2 ^ 58)
        ++ (13 :: 10 :: encList (List.replicate (2 ^ 58) RESP.nil)))) = .abort :=
  ⟨validEncListB_replicate_nil (2 ^ 58), by rw [List.length_replicate],
    capacity_abort_general (2 ^ 58) (encList (List.replicate (2 ^ 58) RESP.nil))
      (by norm_num) (by norm_num [isizeMax])⟩

/-- C3 (amended): for every `k` with `32·k ≤ isize::MAX` — the bound
`Vec::with_capacity` imposes; the counterexample shows larger declared
counts panic instead — a buffer `*<k>\r\n` followed by `k` validly
encoded elements whose nested arrays also satisfy that bound decodes to
`Array` of exactly those `k` values in encoded order, threading each
element's remainder into the next; and when the elements run out early
and the dispatcher fails on the remaining bytes, the whole array decode
fails with exactly that element's error and no partial array is
returned. -/
theorem claim3_array_decode :
    (∀ (xs : List RESP) (extra : List Nat),
      validEncB (.array xs) = true → vecFitsB (.array xs) = true →
      parse_resp (42 :: (natDecimal xs.length ++ (13 :: 10 :: (encList xs ++ extra))))
        = .ok (.array xs, extra))
    ∧ (∀ (goods : List RESP) (k : Nat) (rest : List Nat) (e : RError),
      validEncListB goods = true → vecFitsListB goods = true → goods.length < k →
      32 * k ≤ isizeMax → parse_resp rest = .err e →
      parse_resp (42 :: (natDecimal k ++ (13 :: 10 :: (encList goods ++ rest))))
        = .err e) := by
  constructor
  · intro xs extra hv hw
    have h := parse_resp_enc (.array xs) extra hv hw
    rw [show enc (.array xs) ++ extra
        = 42 :: (natDecimal xs.length ++ (13 :: 10 :: (encList xs ++ extra))) by
      simp [enc]] at h
    exact h
  · intro goods k rest e hv hw hlt hcap herr
    rw [parse_resp_cons, if_neg (by omega), if_neg (by omega), if_neg (by omega), if_pos rfl]
    simp only [parse_arrays_g]
    rw [(scan_ok_iff (natDecimal k ++ (13 :: 10 :: (encList goods ++ rest))) (natDecimal k)
      (encList goods ++ rest)).mpr ⟨rfl, natDecimal_no_crlf k⟩]
    simp only [obind_ok]
    rw [parseLenU64_natDecimal k (by simp only [isizeMax] at hcap; omega)]
    simp only [obind_ok]
    rw [show vec_with_capacity_RESP k = .ok () by simp [vec_with_capacity_RESP, hcap]]
    simp only [obind_ok]
    have hlen1 : (natDecimal k ++ (13 :: 10 :: (encList goods ++ rest))).length
        = (natDecimal k).length + (2 + ((encList goods).length + rest.length)) := by
      simp only [List.length_append, List.length_cons]
      omega
    rw [elems_ep ((natDecimal k ++ (13 :: 10 :: (encList goods ++ rest))).length + 1)
      (fun v ex hvv hww hll => parse_respF_enc _ v ex hvv hww hll) goods k rest e hv hw
      (by omega) hlt
      (by
        rw [parse_resp_fuel_mono (rest.length + 1) _ (by omega) rest
          (by rw [show parse_resp_fuel (rest.length + 1) rest = parse_resp rest from rfl, herr]
              simp)]
        rw [show parse_resp_fuel (rest.length + 1) rest = parse_resp rest from rfl, herr])]
    simp only [obind_err]

/-- Witness for the amended C3: `*1\r\n:1\r\n` decodes to a one-element
array, and `*2\r\n:1\r\n)` fails with the second element's
`UnknownSymbol`. -/
theorem claim3_witness :
    (validEncB (.array [.integer [49]]) = true ∧ vecFitsB (.array [.integer [49]]) = true ∧
      parse_resp (42 :: (natDecimal ([RESP.integer [49]] : List RESP).length
          ++ (13 :: 10 :: (encList [.integer [49]] ++ []))))
        = .ok (.array [.integer [49]], []))
    ∧ (validEncListB [RESP.integer [49]] = true ∧ vecFitsListB [RESP.integer [49]] = true ∧
      ([RESP.integer [49]] : List RESP).length < 2 ∧ 32 * 2 ≤ isizeMax ∧
      parse_resp [41] = .err .unknownSymbol ∧
      parse_resp (42 :: (natDecimal 2 ++ (13 :: 10 :: (encList [.integer [49]] ++ [41]))))
        = .err .unknownSymbol) := by
  have hv : validEncB (.array [.integer [49]]) = true := by
    norm_num [validEncB, validEncListB, hasCrlf]
  have hw : vecFitsB (.array [.integer [49]]) = true := by
    norm_num [vecFitsB, vecFitsListB, isizeMax]
  have hvl : validEncListB [RESP.integer [49]] = true := by
    simp [validEncB, validEncListB, hasCrlf]
  have hwl : vecFitsListB [RESP.integer [49]] = true := by
    simp [vecFitsB, vecFitsListB]
  exact ⟨⟨hv, hw, claim3_array_decode.1 [.integer [49]] [] hv hw⟩,
    ⟨hvl, hwl, by norm_num, by norm_num [isizeMax], rfl,
      claim3_array_decode.2 [.integer [49]] 2 [41] .unknownSymbol hvl hwl (by norm_num)
        (by norm_num [isizeMax]) rfl⟩⟩

/-- C4 (refuting theorem): the claim says no input with any declared
length/count value can cause a panic, but the 22-byte buffer
`*9999999999999999999\r\n` makes `parse_arrays` call
`Vec::with_capacity(9999999999999999999)` before decoding any element;
since that capacity exceeds `isize::MAX` bytes, the code panics with
"capacity overflow" — modelled as `Out.abort` — instead of returning a
structured error. -/
theorem claim4_with_capacity_abort :
    parse_resp
      [42, 57, 57, 57, 57, 57, 57, 57, 57, 57, 57, 57, 57, 57, 57, 57, 57, 57, 57, 57, 13, 10]
      = .abort := rfl

/-- C5 (counterexample): the claim says `UnknownSymbol` carries the
offending first byte, but the source's `RError::UnknownSymbol` is a unit
variant: two inputs with different offending first bytes (`#` = 35 and
`)` = 41) produce the identical error value, so the error carries no
byte. -/
theorem claim5_counterexample :
    parse_resp [35] = .err .unknownSymbol ∧ parse_resp [41] = .err .unknownSymbol :=
  ⟨rfl, rfl⟩

/-- C5 (amended): decoding the empty buffer fails with `EmptyInput`, and a
non-empty buffer whose first byte is none of `+ - : $ *` fails with
`UnknownSymbol`; the `UnknownSymbol` error is a unit variant and does not
carry the offending byte. -/
theorem claim5_amended :
    parse_resp [] = .err .emptyInput ∧
    (∀ (b : Nat) (rest : List Nat), b ≠ 43 → b ≠ 45 → b ≠ 58 → b ≠ 36 → b ≠ 42 →
      parse_resp (b :: rest) = .err .unknownSymbol) := by
  refine ⟨rfl, ?_⟩
  intro b rest h1 h2 h3 h4 h5
  rw [parse_resp_cons, if_neg h1, if_neg h3, if_neg h4, if_neg h5, if_neg h2]

/-- Witness for the amended C5 at the offending byte `#` = 35. -/
theorem claim5_witness :
    parse_resp [] = .err .emptyInput ∧ parse_resp [35] = .err .unknownSymbol :=
  ⟨claim5_amended.1,
    claim5_amended.2 35 [] (by decide) (by decide) (by decide) (by decide) (by decide)⟩

/-- C6 (counterexample): the claim says every bulk-string input whose
length line does not parse as a non-negative integer fails with the
numeric-format error, but the nil marker `$-1\r\n` is exactly such an
input (its length line `-1` fails to convert) and decoding succeeds with
`Nil` because the marker is special-cased before length parsing. -/
theorem claim6_counterexample :
    parse_everything_until_crlf [45, 49, 13, 10] = .ok ([45, 49], []) ∧
    parseLenU64 [45, 49] = .err (.other .parseInvalidDigit) ∧
    parse_resp [36, 45, 49, 13, 10] = .ok (.nil, []) :=
  ⟨rfl, rfl, rfl⟩

/-- C6 (amended): except for the nil marker (`check_null_value`), every
bulk-string input and every array input whose length/count line fails to
convert to a non-negative `u64` makes decoding fail with the error that
wraps the underlying conversion failure — the source's `RError::Other`,
which the spec names `NumericFormat` — and never with an abort; and the
error kinds form the closed set `EmptyInput`, `UnknownSymbol`, `NoCrlf`,
`IncorrectFormat`, `Other` (the wrapping kind). -/
theorem claim6_amended :
    (∀ (input line rem : List Nat) (e : RError), check_null_value input = false →
      parse_everything_until_crlf input = .ok (line, rem) → parseLenU64 line = .err e →
      (∃ c, e = .other c) ∧ parse_resp (36 :: input) = .err e)
    ∧ (∀ (input line rem : List Nat) (e : RError),
      parse_everything_until_crlf input = .ok (line, rem) → parseLenU64 line = .err e →
      parse_resp (42 :: input) = .err e)
    ∧ (∀ er : RError, er = .unknownSymbol ∨ er = .emptyInput ∨ er = .noCrlf ∨
      er = .incorrectFormat ∨ ∃ c, er = .other c) := by
  refine ⟨?_, ?_, ?_⟩
  · intro input line rem e hnull hscan hlen
    refine ⟨parseLenU64_err_other line e hlen, ?_⟩
    rw [parse_resp_cons, if_neg (by omega), if_neg (by omega), if_pos rfl]
    simp only [parse_bulk_strings, hnull, Bool.false_eq_true, if_false]
    rw [hscan]
    simp only [obind_ok]
    rw [hlen]
    simp only [obind_err]
  · intro input line rem e hscan hlen
    rw [parse_resp_cons, if_neg (by omega), if_neg (by omega), if_neg (by omega), if_pos rfl]
    simp only [parse_arrays_g]
    rw [hscan]
    simp only [obind_ok]
    rw [hlen]
    simp only [obind_err]
  · intro er
    cases er with
    | unknownSymbol => exact Or.inl rfl
    | emptyInput => exact Or.inr (Or.inl rfl)
    | noCrlf => exact Or.inr (Or.inr (Or.inl rfl))
    | incorrectFormat => exact Or.inr (Or.inr (Or.inr (Or.inl rfl)))
    | other c => exact Or.inr (Or.inr (Or.inr (Or.inr ⟨c, rfl⟩)))

/-- Witness for the amended C6 on `$x\r\n` and `*x\r\n`. -/
theorem claim6_witness :
    check_null_value [120, 13, 10] = false ∧
    parse_everything_until_crlf [120, 13, 10] = .ok ([120], []) ∧
    parseLenU64 [120] = .err (.other .parseInvalidDigit) ∧
    ((∃ c, (RError.other .parseInvalidDigit) = RError.other c) ∧
      parse_resp [36, 120, 13, 10] = .err (.other .parseInvalidDigit)) ∧
    parse_resp [42, 120, 13, 10] = .err (.other .parseInvalidDigit) :=
  ⟨rfl, rfl, rfl,
    claim6_amended.1 [120, 13, 10] [120] [] (.other .parseInvalidDigit) rfl rfl rfl,
    claim6_amended.2.1 [120, 13, 10] [120] [] (.other .parseInvalidDigit) rfl rfl⟩

/-- C7: a buffer beginning with the five bytes `$-1\r\n` decodes to `Nil`
and advances past exactly those five bytes (so `$-1\r\n` alone yields
`Nil` with empty remainder), and `Nil` is never equal to an empty
`BulkString`. -/
theorem claim7_nil_decode :
    (∀ extra : List Nat, parse_resp (36 :: 45 :: 49 :: 13 :: 10 :: extra) = .ok (.nil, extra))
    ∧ parse_resp [36, 45, 49, 13, 10] = .ok (.nil, [])
    ∧ RESP.nil ≠ RESP.bulkString [] := by
  refine ⟨?_, rfl, fun h => RESP.noConfusion h⟩
  intro extra
  rw [parse_resp_cons, if_neg (by omega), if_neg (by omega), if_pos rfl]
  simp only [parse_bulk_strings, check_null_cons, if_true]
  rw [sliceFrom_eq_ok _ _ (by simp)]
  simp only [obind_ok]
  rfl

/-- Witness for C7 with one extra byte after the nil marker. -/
theorem claim7_witness :
    parse_resp (36 :: 45 :: 49 :: 13 :: 10 :: [7]) = .ok (.nil, [7]) ∧
    parse_resp [36, 45, 49, 13, 10] = .ok (.nil, []) :=
  ⟨claim7_nil_decode.1 [7], claim7_nil_decode.2.1⟩

/-- C8: the line scanner finds the first adjacent `\r\n` pair — it
succeeds with `(line, rem)` exactly when the input is
`line ++ \r\n ++ rem` with no CRLF pair inside `line`, fails with `NoCrlf`
exactly when the buffer contains no adjacent `\r\n` pair (a trailing lone
`\r` is not matched against anything past the end), and these are the only
two outcomes — in particular no out-of-bounds read (`Out.abort`). -/
theorem claim8_line_scanner (input line rem : List Nat) :
    (parse_everything_until_crlf input = .ok (line, rem) ↔
      input = line ++ 13 :: 10 :: rem ∧ hasCrlf line = false)
    ∧ (parse_everything_until_crlf input = .err .noCrlf ↔ hasCrlf input = false)
    ∧ ((∃ l r, parse_everything_until_crlf input = .ok (l, r)) ∨
      parse_everything_until_crlf input = .err .noCrlf) :=
  ⟨scan_ok_iff input line rem, scan_err_iff input, scan_total input⟩

/-- Witness for C8: `a\r\n` splits at the pair, `a\r` has no pair. -/
theorem claim8_witness :
    parse_everything_until_crlf [97, 13, 10] = .ok ([97], []) ∧
    parse_everything_until_crlf [97, 13] = .err .noCrlf :=
  ⟨(claim8_line_scanner [97, 13, 10] [97] []).1.mpr ⟨rfl, rfl⟩,
    (claim8_line_scanner [97, 13] [] []).2.1.mpr rfl⟩

/-- C9: whenever the top-level decode succeeds with a value and a
leftover, the leftover is a suffix of the input: the input is the consumed
prefix (the encoding of the returned value, sigil included) concatenated
with the leftover, and re-decoding that consumed prefix before any other
bytes yields the same value with exactly those bytes as the remainder —
so feeding the leftover back into decode continues at the next frame. -/
theorem claim9_leftover_suffix (input left : List Nat) (v : RESP)
    (h : parse_resp input = .ok (v, left)) :
    ∃ consumed, input = consumed ++ left ∧
      ∀ ext, parse_resp (consumed ++ ext) = .ok (v, ext) := by
  have h0 : parse_resp_fuel (input.length + 1) input = .ok (v, left) := h
  obtain ⟨consumed, hc⟩ := (resp_consume (input.length + 1) input (v, left) h0).2
  refine ⟨consumed, hc.symm, ?_⟩
  intro ext
  have h1 : parse_resp_fuel (input.length + 1) (consumed ++ left) = .ok (v, left) := by
    rw [hc]; exact h0
  have hloc := respF_loc (input.length + 1) consumed left v h1 ext
  by_cases hcmp : (consumed ++ ext).length < input.length + 1
  · rw [← parse_resp_eq_fuel (consumed ++ ext) (input.length + 1) hcmp]
    exact hloc
  · rw [parse_resp]
    rw [parse_resp_fuel_mono (input.length + 1) ((consumed ++ ext).length + 1) (by omega)
      (consumed ++ ext) (by rw [hloc]; simp)]
    exact hloc

/-- Witness for C9 on `+h\r\n)` (value `h`, leftover `)`). -/
theorem claim9_witness :
    parse_resp [43, 104, 13, 10, 41] = .ok (.string [104], [41]) ∧
    ∃ consumed, ([43, 104, 13, 10, 41] : List Nat) = consumed ++ [41] ∧
      ∀ ext, parse_resp (consumed ++ ext) = .ok (.string [104], ext) :=
  ⟨rfl, claim9_leftover_suffix [43, 104, 13, 10, 41] [41] (.string [104]) rfl⟩

/-- C10: the integer decoder performs no validation of the line's
content — any line before the first CRLF is returned verbatim as
`Integer`, digits or not (for example `:abc\r\n` decodes to
`Integer "abc"` with empty remainder); simple strings and errors capture
lines equally unvalidated. -/
theorem claim10_unvalidated_lines :
    (∀ (s rest : List Nat), hasCrlf s = false →
      parse_resp (58 :: (s ++ (13 :: 10 :: rest))) = .ok (.integer s, rest) ∧
      parse_resp (43 :: (s ++ (13 :: 10 :: rest))) = .ok (.string s, rest) ∧
      parse_resp (45 :: (s ++ (13 :: 10 :: rest))) = .ok (.error s, rest))
    ∧ parse_resp [58, 97, 98, 99, 13, 10] = .ok (.integer [97, 98, 99], []) := by
  refine ⟨?_, rfl⟩
  intro s rest hns
  refine ⟨?_, ?_, ?_⟩
  · rw [parse_resp_cons, if_neg (by omega), if_pos rfl]
    simp only [parse_integers]
    rw [(scan_ok_iff (s ++ (13 :: 10 :: rest)) s rest).mpr ⟨rfl, hns⟩]
    simp only [obind_ok]
  · rw [parse_resp_cons, if_pos rfl]
    simp only [parse_simple_string]
    rw [(scan_ok_iff (s ++ (13 :: 10 :: rest)) s rest).mpr ⟨rfl, hns⟩]
    simp only [obind_ok]
  · rw [parse_resp_cons, if_neg (by omega), if_neg (by omega), if_neg (by omega),
      if_neg (by omega), if_pos rfl]
    simp only [parse_errors]
    rw [(scan_ok_iff (s ++ (13 :: 10 :: rest)) s rest).mpr ⟨rfl, hns⟩]
    simp only [obind_ok]

/-- Witness for C10: the non-digit line `abc` under all three sigils. -/
theorem claim10_witness :
    hasCrlf [97, 98, 99] = false ∧
    parse_resp (58 :: ([97, 98, 99] ++ (13 :: 10 :: []))) = .ok (.integer [97, 98, 99], []) ∧
    parse_resp (43 :: ([97, 98, 99] ++ (13 :: 10 :: []))) = .ok (.string [97, 98, 99], []) ∧
    parse_resp (45 :: ([97, 98, 99] ++ (13 :: 10 :: []))) = .ok (.error [97, 98, 99], []) :=
  ⟨rfl, (claim10_unvalidated_lines.1 [97, 98, 99] [] rfl).1,
    (claim10_unvalidated_lines.1 [97, 98, 99] [] rfl).2.1,
    (claim10_unvalidated_lines.1 [97, 98, 99] [] rfl).2.2⟩
